import Mathlib

/-!
Verification of the PD_generator layout-and-text-fitting engine.

Python strings are modelled as `List Char` (named `Str`); the glyph-metrics
provider `reportlab.pdfbase.pdfmetrics.stringWidth(s, font_name, font_size)`
is modelled as an abstract parameter `sw : Str → ℚ → ℚ` (the font name is
baked into `sw`; the size is passed explicitly, exactly as the code does).
All real-valued quantities (widths, heights, font sizes) are rationals.

The definitions below are transcribed from
`src/pd_generator/text_utils.py` and `src/pd_generator/poster.py`
(the top-level `poster.py` contains an identical copy of `_draw_image`).
Python `while` loops are written with an explicit fuel argument that is a
proved upper bound on the number of iterations, so that every definition
stays executable by the kernel.
-/

namespace PD

/-- A Python string: a list of characters. -/
abbrev Str := List Char

/-- The whitespace characters stripped by Python's `str.strip()`
(the ASCII ones; the source texts never contain the exotic Unicode spaces). -/
def isPySpace (c : Char) : Bool :=
  c = ' ' ∨ c = '\t' ∨ c = '\n' ∨ c = '\r' ∨ c = '\x0b' ∨ c = '\x0c'

/-- Python `s.strip()`: drop leading and trailing whitespace. -/
def pyStrip (s : Str) : Str :=
  ((s.dropWhile isPySpace).reverse.dropWhile isPySpace).reverse

/-- Python `s.strip(chars)` for an explicit character predicate. -/
def pyStripSet (p : Char → Bool) (s : Str) : Str :=
  ((s.dropWhile p).reverse.dropWhile p).reverse

/-- `text.replace("\n", " \n ")`: every newline becomes space-newline-space. -/
def replaceNl : Str → Str
  | [] => []
  | c :: cs => if c = '\n' then ' ' :: '\n' :: ' ' :: replaceNl cs else c :: replaceNl cs

/-- Python `s.split(" ")`: split on every single space, keeping empty pieces.
`splitSp [] = [[]]`, just as `"".split(" ") == [""]`. -/
def splitSp : Str → List Str
  | [] => [[]]
  | c :: cs =>
    if c = ' ' then [] :: splitSp cs
    else
      match splitSp cs with
      | t :: ts => (c :: t) :: ts
      | [] => [[c]]

/-- The token list the wrap loop iterates over:
`text.replace("\n", " \n ").split(" ")`. -/
def tokens (text : Str) : List Str := splitSp (replaceNl text)

/-! ### `_break_long_word` -/

/-- One iteration of the character loop of `_break_long_word`. -/
def blwStep (m : Str → ℚ) (maxW : ℚ) (st : List Str × Str) (c : Char) : List Str × Str :=
  let test := st.2 ++ [c]
  if m test ≤ maxW then (st.1, test)
  else ((if st.2 ≠ [] then st.1 ++ [st.2] else st.1), [c])

/-- `_break_long_word(word, max_width, font, size)`: break a word that is too
wide into character-level chunks.  `m` is `stringWidth` at the fixed font and
size. -/
def breakLongWord (m : Str → ℚ) (maxW : ℚ) (word : Str) : List Str :=
  let st := word.foldl (blwStep m maxW) ([], [])
  if st.2 ≠ [] then st.1 ++ [st.2] else st.1

/-! ### `wrap_text` -/

/-- One iteration of the word loop of `wrap_text` on the state
`(lines, current_line)`. -/
def wrapStep (m : Str → ℚ) (maxW : ℚ) (st : List Str × Str) (word : Str) : List Str × Str :=
  if word = ['\n'] then
    ((if st.2 ≠ [] then st.1 ++ [pyStrip st.2] else st.1), [])
  else if word = [] then st
  else
    let test := if st.2 ≠ [] then pyStrip (st.2 ++ ' ' :: word) else word
    if m test ≤ maxW then (st.1, test)
    else
      let closed := if st.2 ≠ [] then st.1 ++ [st.2] else st.1
      if maxW < m word then (closed ++ breakLongWord m maxW word, [])
      else (closed, word)

/-- Final `if current_line: lines.append(current_line)`. -/
def finishWrap (st : List Str × Str) : List Str :=
  if st.2 ≠ [] then st.1 ++ [st.2] else st.1

/-- `wrap_text` at a fixed measuring function `m` (the font/size pair already
applied to `stringWidth`). -/
def wrapM (m : Str → ℚ) (maxW : ℚ) (text : Str) : List Str :=
  if text = [] then []
  else finishWrap ((tokens text).foldl (wrapStep m maxW) ([], []))

/-- `wrap_text(text, max_width, font_name, font_size)`.  The font is baked
into the measure `sw`; the size is passed through to it. -/
def wrap_text (sw : Str → ℚ → ℚ) (text : Str) (maxW : ℚ) (fontSize : ℚ) : List Str :=
  wrapM (fun s => sw s fontSize) maxW text

/-! ### `calculate_text_height` -/

/-- `calculate_text_height(lines, font_size, line_spacing)`. -/
def calculate_text_height (lines : List Str) (fontSize : ℚ) (lineSpacing : ℚ) : ℚ :=
  if lines = [] then 0
  else (lines.length : ℚ) * (fontSize * lineSpacing)

/-! ### `fit_text_to_box` -/

/-- The shrink loop of `fit_text_to_box`:
`while font_size >= min_font_size: wrap; measure; return on fit; font_size -= 1`.
The `fuel` argument is an explicit upper bound on the number of iterations
(each iteration lowers `font_size` by exactly one, and the loop stops as soon
as `font_size < min_font_size`); the surrounding definition passes a fuel
value proved large enough, so the fuel never runs out. -/
def fitShrink (sw : Str → ℚ → ℚ) (text : Str) (maxW maxH minFontSize lineSpacing : ℚ) :
    Nat → ℚ → Option (List Str × ℚ)
  | 0, _ => none
  | fuel + 1, fontSize =>
    if fontSize < minFontSize then none
    else
      let lines := wrap_text sw text maxW fontSize
      let height := calculate_text_height lines fontSize lineSpacing
      if height ≤ maxH then some (lines, fontSize)
      else fitShrink sw text maxW maxH minFontSize lineSpacing fuel (fontSize - 1)

/-- Enough fuel for the shrink loop starting at `initialFontSize`:
one more than the number of unit decrements from `initialFontSize` down to
below `minFontSize`. -/
def shrinkFuel (initialFontSize minFontSize : ℚ) : Nat :=
  (⌈initialFontSize - minFontSize⌉ + 1).toNat

/-- Python `int(q)`: truncation toward zero. -/
def pyInt (q : ℚ) : ℤ := if 0 ≤ q then ⌊q⌋ else -⌊-q⌋

/-- Python `xs[:n]` for an integer `n` (negative `n` counts from the end). -/
def pySliceTo {α : Type} (xs : List α) (n : ℤ) : List α :=
  if 0 ≤ n then xs.take n.toNat else xs.take (xs.length - (-n).toNat)

/-- The loop
`while last_line and stringWidth(last_line + ellipsis) > max_width: last_line = last_line[:-1]`,
run on the reversed line so that dropping the final character is structural. -/
def shortenRevStr (m : Str → ℚ) (maxW : ℚ) : Str → Str
  | [] => []
  | c :: rest =>
    if maxW < m ((c :: rest).reverse ++ ['…']) then shortenRevStr m maxW rest
    else c :: rest

/-- Shorten `last_line` from the end until `last_line + "…"` fits `max_width`
(or the line is exhausted). -/
def shortenForEllipsis (m : Str → ℚ) (maxW : ℚ) (lastLine : Str) : Str :=
  (shortenRevStr m maxW lastLine.reverse).reverse

/-- The truncation block of `fit_text_to_box`: keep the first `max_lines`
lines, and replace the last kept line by its ellipsis-shortened form. -/
def truncatePart (m : Str → ℚ) (maxW : ℚ) (lines : List Str) (maxLines : ℤ) :
    List Str × Bool :=
  if maxLines < (lines.length : ℤ) then
    let kept := pySliceTo lines maxLines
    let kept' :=
      if kept ≠ [] then
        kept.dropLast ++ [shortenForEllipsis m maxW (kept.getLast!) ++ ['…']]
      else kept
    (kept', true)
  else (lines, false)

/-- `fit_text_to_box(text, max_width, max_height, font_name, initial_font_size,
min_font_size, line_spacing)`, returning `(lines, final_font_size, was_truncated)`. -/
def fit_text_to_box (sw : Str → ℚ → ℚ) (text : Str) (maxW maxH : ℚ)
    (initialFontSize minFontSize lineSpacing : ℚ) : List Str × ℚ × Bool :=
  if text = [] then ([], initialFontSize, false)
  else
    match fitShrink sw text maxW maxH minFontSize lineSpacing
        (shrinkFuel initialFontSize minFontSize) initialFontSize with
    | some (lines, fontSize) => (lines, fontSize, false)
    | none =>
      -- font size at minimum but still does not fit: truncate
      let fontSize := minFontSize
      let lines := wrap_text sw text maxW fontSize
      let lineHeight := fontSize * lineSpacing
      let maxLines := pyInt (maxH / lineHeight)
      let res := truncatePart (fun s => sw s fontSize) maxW lines maxLines
      (res.1, fontSize, res.2)

/-! ### `sanitize_filename` and `format_output_filename` -/

/-- The characters replaced by `_`: `'<>:"/\\|?*\x00'`. -/
def unsafeChars : List Char := ['<', '>', ':', '"', '/', '\\', '|', '?', '*', '\x00']

/-- Python `s.replace(t, "_")` for a single character `t`. -/
def replaceChar (t : Char) (s : Str) : Str :=
  s.map fun c => if c = t then '_' else c

/-- `for char in unsafe_chars: result = result.replace(char, "_")`. -/
def replaceUnsafe (s : Str) : Str :=
  unsafeChars.foldl (fun r c => replaceChar c r) s

/-- One pass of Python `s.replace(aa, a)` for a doubled character `a`:
left-to-right, non-overlapping. -/
def replacePairOnce (a : Char) : Str → Str
  | x :: y :: rest =>
    if x = a ∧ y = a then a :: replacePairOnce a rest
    else x :: replacePairOnce a (y :: rest)
  | s => s

/-- Whether `s` contains the doubled character `aa` as a substring. -/
def containsPair (a : Char) : Str → Bool
  | x :: y :: rest => (x = a ∧ y = a) ∨ containsPair a (y :: rest)
  | _ => false

/-- `while aa in result: result = result.replace(aa, a)`.  Each pass strictly
shortens the string while a pair remains, so `s.length` passes always
suffice; the fuel therefore never runs out. -/
def collapseGo (a : Char) : Nat → Str → Str
  | 0, s => s
  | n + 1, s => if containsPair a s then collapseGo a n (replacePairOnce a s) else s

/-- Collapse every run of repeated `a` down to a single `a`. -/
def collapsePairs (a : Char) (s : Str) : Str := collapseGo a s.length s

/-- Everything `sanitize_filename` does before the final length truncation:
replace unsafe characters, collapse double spaces and double underscores,
strip leading/trailing spaces and dots. -/
def sanitizePreTruncate (name : Str) : Str :=
  pyStripSet (fun c => c = ' ' ∨ c = '.')
    (collapsePairs '_' (collapsePairs ' ' (replaceUnsafe name)))

/-- `sanitize_filename(name, max_length)`. -/
def sanitize_filename (name : Str) (maxLength : Nat) : Str :=
  let result := sanitizePreTruncate name
  if maxLength < result.length then result.take maxLength else result

/-- Does `pat` occur at the head of `s`? -/
def matchesAt : Str → Str → Bool
  | [], _ => true
  | _ :: _, [] => false
  | p :: ps, c :: cs => p = c ∧ matchesAt ps cs

/-- Python `s.replace(pat, rep)` for the non-empty pattern `p :: ps`:
scan left to right, replacing non-overlapping occurrences.  The fuel is the
length of `s`, which equals the number of characters still to consume, so it
never runs out. -/
def replaceSubGo (p : Char) (ps rep : Str) : Nat → Str → Str
  | _, [] => []
  | 0, s => s
  | n + 1, c :: cs =>
    if matchesAt (p :: ps) (c :: cs) then
      rep ++ replaceSubGo p ps rep n (List.drop ps.length cs)
    else c :: replaceSubGo p ps rep n cs

/-- Python `s.replace(pat, rep)` (patterns used here are never empty; an
empty pattern behaves as the identity). -/
def replaceSub (pat rep s : Str) : Str :=
  match pat with
  | [] => s
  | p :: ps => replaceSubGo p ps rep s.length s

/-- `format_output_filename(pattern, project_id, project_name)`:
fill the `{project_id}` / `{project_name}` placeholders, then sanitize with
the default maximum length 200. -/
def format_output_filename (pat : Str) (projectId : Str) (projectName : Str) : Str :=
  sanitize_filename
    (replaceSub "{project_name}".data projectName
      (replaceSub "{project_id}".data projectId pat)) 200

/-! ### `PosterGenerator._draw_image` geometry

Both copies of the repository (`poster.py` and `src/pd_generator/poster.py`)
contain character-identical `_draw_image` bodies; the geometry below is that
shared code.  The drawn rectangle is `(drawX, drawY, drawW, drawH)` and
`clip` is the clip rectangle installed before `drawImage` (present exactly in
cover mode). -/

structure ImagePlacement where
  drawX : ℚ
  drawY : ℚ
  drawW : ℚ
  drawH : ℚ
  clip : Option (ℚ × ℚ × ℚ × ℚ)
deriving DecidableEq, Repr

/-- The pure geometry of `PosterGenerator._draw_image`: given the image's
intrinsic pixel size, the target rectangle `(x, y, width, height)` and the
fit mode (`"cover"` or anything else for contain), compute where the image is
drawn and what clip region is installed. -/
def drawImagePlacement (imgWidth imgHeight x y width height : ℚ) (fitMode : String) :
    ImagePlacement :=
  let imgAspect := imgWidth / imgHeight
  let targetAspect := width / height
  if fitMode = "cover" then
    if targetAspect < imgAspect then
      -- image is wider: scale by height, center horizontally (cropped)
      let scale := height / imgHeight
      let scaledWidth := imgWidth * scale
      let scaledHeight := height
      { drawX := x - (scaledWidth - width) / 2, drawY := y
        drawW := scaledWidth, drawH := scaledHeight
        clip := some (x, y, width, height) }
    else
      -- image is taller: scale by width, center vertically (cropped)
      let scale := width / imgWidth
      let scaledWidth := width
      let scaledHeight := imgHeight * scale
      { drawX := x, drawY := y - (scaledHeight - height) / 2
        drawW := scaledWidth, drawH := scaledHeight
        clip := some (x, y, width, height) }
  else
    if targetAspect < imgAspect then
      -- image is wider: scale by width
      let scaledWidth := width
      let scaledHeight := width / imgAspect
      { drawX := x + (width - scaledWidth) / 2, drawY := y + (height - scaledHeight) / 2
        drawW := scaledWidth, drawH := scaledHeight
        clip := none }
    else
      -- image is taller: scale by height
      let scaledHeight := height
      let scaledWidth := height * imgAspect
      { drawX := x + (width - scaledWidth) / 2, drawY := y + (height - scaledHeight) / 2
        drawW := scaledWidth, drawH := scaledHeight
        clip := none }

/-! ### The team block of `PosterGenerator.generate_poster` -/

/-- Whether the composer emits the team-truncation warning: it calls
`fit_text_to_box(project.team or "", ...)` with initial size
`max(body_size - 2, min_font_size)` and warns exactly when the returned
`was_truncated` flag is set. -/
def teamTruncated (sw : Str → ℚ → ℚ) (team : Str)
    (textColumnWidth teamMaxHeight bodySize minFontSize lineSpacing : ℚ) : Bool :=
  (fit_text_to_box sw team textColumnWidth teamMaxHeight
    (max (bodySize - 2) minFontSize) minFontSize lineSpacing).2.2

/-! ### A concrete glyph measure for witnesses and counterexamples

`stringWidth` in reportlab is additive over glyphs and linear in the font
size; `cm` is such a measure where every glyph has width 1 except the tab
character, which has width 100. -/

/-- Width of a single character under the concrete measure, at size 1. -/
def charW (c : Char) : ℚ := if c = '\t' then 100 else 1

/-- The concrete measure: `size` times the sum of the character widths. -/
def cm (s : Str) (size : ℚ) : ℚ := size * (s.map charW).sum

/-! ### Cleanliness predicates used by the amended claims -/

/-- The text contains at least one visible (non-whitespace) character, so its
wrapped line sequence is never empty. -/
def hasVisibleChar (t : Str) : Prop := ∃ c ∈ t, isPySpace c = false

/-- Every whitespace character of the text is a plain space or a newline
(no tabs etc.), so `str.strip()` never eats into a built line. -/
def cleanText (t : Str) : Prop := ∀ c ∈ t, isPySpace c = true → c = ' ' ∨ c = '\n'

/-- Every whitespace character of the text is a plain space (no tabs and no
newlines). -/
def strictCleanText (t : Str) : Prop := ∀ c ∈ t, isPySpace c = true → c = ' '

/-- The string is empty or neither starts nor ends with whitespace (so that
Python's `strip()` leaves it unchanged). -/
def noWsEnds (s : Str) : Bool :=
  (s.head?.all fun c => ! isPySpace c) && (s.getLast?.all fun c => ! isPySpace c)

/-- The words already committed to a wrap state: the space-split pieces of
every closed line, followed by those of the pending current line. -/
def stateWords (st : List Str × Str) : List Str :=
  (st.1.map splitSp).flatten ++ (if st.2 = [] then [] else splitSp st.2)

/-- Structural cleanliness of a wrap state: no empty closed line, every
character of every closed line is a space or non-whitespace, and the current
line is strip-free with the same character shape. -/
def stateClean (st : List Str × Str) : Prop :=
  [] ∉ st.1 ∧ (∀ l ∈ st.1, ∀ c ∈ l, isPySpace c = false ∨ c = ' ') ∧
  noWsEnds st.2 = true ∧ (∀ c ∈ st.2, isPySpace c = false ∨ c = ' ')

/-- The number of lines a wrap state will produce once finished: the closed
lines plus the pending current line if non-empty. -/
def pendCount (st : List Str × Str) : Nat :=
  st.1.length + (if st.2 = [] then 0 else 1)

/-- Stays-ahead invariant for the character-break loop: the easy run has
strictly fewer chunks, or the same number and its pending chunk is a suffix
of the hard run's pending chunk. -/
def blwAhead (e h : List Str × Str) : Prop :=
  e.1.length < h.1.length ∨ (e.1.length = h.1.length ∧ ∃ p, h.2 = p ++ e.2)

/-- Relation between the pending lines of two wrap runs with equally many
closed lines: equal, or the easy line is a word-suffix of the hard line, or
the easy line is empty and the hard one is not. -/
def wrapRel (ce ch : Str) : Prop :=
  ch = ce ∨ (ce ≠ [] ∧ ∃ p, p ≠ [] ∧ ch = p ++ ' ' :: ce) ∨ (ce = [] ∧ ch ≠ [])

/-- Stays-ahead invariant for the word loop: the easy run has strictly fewer
closed lines, or the same number and related pending lines. -/
def wrapAhead (e h : List Str × Str) : Prop :=
  e.1.length < h.1.length ∨ (e.1.length = h.1.length ∧ wrapRel e.2 h.2)

/-! ## Theorems -/

/-- Claim C4: image placement bounds.  For positive intrinsic dimensions and
a positive target rectangle, contain mode never overflows the target and is
centered in both axes with no clip region; cover mode never under-covers,
crops symmetrically, and clips exactly to the target rectangle; and covering
a 200x100 image into a 100x100 target at the origin draws a 200x100
rectangle shifted left by 50 with the target as clip region. -/
theorem C4_image_placement_bounds (imgW imgH x y w h : ℚ)
    (hiw : 0 < imgW) (hih : 0 < imgH) (hw : 0 < w) (hh : 0 < h) :
    ((drawImagePlacement imgW imgH x y w h "contain").drawW ≤ w ∧
     (drawImagePlacement imgW imgH x y w h "contain").drawH ≤ h ∧
     (drawImagePlacement imgW imgH x y w h "contain").drawX
       = x + (w - (drawImagePlacement imgW imgH x y w h "contain").drawW) / 2 ∧
     (drawImagePlacement imgW imgH x y w h "contain").drawY
       = y + (h - (drawImagePlacement imgW imgH x y w h "contain").drawH) / 2 ∧
     (drawImagePlacement imgW imgH x y w h "contain").clip = none) ∧
    (w ≤ (drawImagePlacement imgW imgH x y w h "cover").drawW ∧
     h ≤ (drawImagePlacement imgW imgH x y w h "cover").drawH ∧
     (drawImagePlacement imgW imgH x y w h "cover").drawX
       = x - ((drawImagePlacement imgW imgH x y w h "cover").drawW - w) / 2 ∧
     (drawImagePlacement imgW imgH x y w h "cover").drawY
       = y - ((drawImagePlacement imgW imgH x y w h "cover").drawH - h) / 2 ∧
     (drawImagePlacement imgW imgH x y w h "cover").clip = some (x, y, w, h)) ∧
    drawImagePlacement 200 100 0 0 100 100 "cover"
      = ⟨-50, 0, 200, 100, some (0, 0, 100, 100)⟩ := by
  have hcontain : ¬ (("contain" : String) = "cover") := by decide
  refine ⟨?_, ?_, ?_⟩
  case refine_3 =>
    have h1 : (100:ℚ)/100 < 200/100 := by norm_num
    simp only [drawImagePlacement, if_true]
    rw [if_pos h1]
    simp only [ImagePlacement.mk.injEq]
    norm_num
  · by_cases hc : w / h < imgW / imgH
    · have hP : drawImagePlacement imgW imgH x y w h "contain" =
          { drawX := x + (w - w) / 2, drawY := y + (h - w / (imgW / imgH)) / 2
            drawW := w, drawH := w / (imgW / imgH), clip := none } := by
        simp only [drawImagePlacement]
        rw [if_neg hcontain, if_pos hc]
      rw [hP]
      have hlt : w * imgH < imgW * h := (div_lt_div_iff₀ hh hih).mp hc
      refine ⟨le_refl w, ?_, rfl, rfl, rfl⟩
      rw [div_div_eq_mul_div, div_le_iff₀ hiw]
      nlinarith
    · have hP : drawImagePlacement imgW imgH x y w h "contain" =
          { drawX := x + (w - h * (imgW / imgH)) / 2, drawY := y + (h - h) / 2
            drawW := h * (imgW / imgH), drawH := h, clip := none } := by
        simp only [drawImagePlacement]
        rw [if_neg hcontain, if_neg hc]
      rw [hP]
      have hle : imgW * h ≤ w * imgH := by
        rw [not_lt] at hc
        exact (div_le_div_iff₀ hih hh).mp hc
      refine ⟨?_, le_refl h, rfl, rfl, rfl⟩
      rw [mul_div_assoc', div_le_iff₀ hih]
      nlinarith
  · by_cases hc : w / h < imgW / imgH
    · have hP : drawImagePlacement imgW imgH x y w h "cover" =
          { drawX := x - (imgW * (h / imgH) - w) / 2, drawY := y
            drawW := imgW * (h / imgH), drawH := h, clip := some (x, y, w, h) } := by
        simp only [drawImagePlacement, if_true]
        rw [if_pos hc]
      rw [hP]
      have hlt : w * imgH < imgW * h := (div_lt_div_iff₀ hh hih).mp hc
      refine ⟨?_, le_refl h, rfl, by ring, rfl⟩
      rw [mul_div_assoc', le_div_iff₀ hih]
      nlinarith
    · have hP : drawImagePlacement imgW imgH x y w h "cover" =
          { drawX := x, drawY := y - (imgH * (w / imgW) - h) / 2
            drawW := w, drawH := imgH * (w / imgW), clip := some (x, y, w, h) } := by
        simp only [drawImagePlacement, if_true]
        rw [if_neg hc]
      rw [hP]
      have hle : imgW * h ≤ w * imgH := by
        rw [not_lt] at hc
        exact (div_le_div_iff₀ hih hh).mp hc
      refine ⟨le_refl w, ?_, by ring, rfl, rfl⟩
      rw [mul_div_assoc', le_div_iff₀ hiw]
      nlinarith

/-- Witness for C4 at the concrete instance of the claim: a 200x100 image
into a 100x100 target, plus a 50x80 image contained in a 100x100 target. -/
theorem C4_image_placement_bounds_witness :
    (0:ℚ) < 200 ∧
    (drawImagePlacement 200 100 0 0 100 100 "cover").drawW = 200 ∧
    (drawImagePlacement 50 80 0 0 100 100 "contain").drawW ≤ 100 := by
  have h := C4_image_placement_bounds 200 100 0 0 100 100
    (by norm_num) (by norm_num) (by norm_num) (by norm_num)
  have h2 := C4_image_placement_bounds 50 80 0 0 100 100
    (by norm_num) (by norm_num) (by norm_num) (by norm_num)
  refine ⟨by norm_num, ?_, h2.1.1⟩
  rw [h.2.2]

/-! ### Basic lemmas about the wrap machinery -/

theorem calculate_text_height_eq (lines : List Str) (fs sp : ℚ) :
    calculate_text_height lines fs sp = (lines.length : ℚ) * (fs * sp) := by
  unfold calculate_text_height
  split
  · simp [*]
  · rfl

theorem blwStep_snd_ne_nil (m : Str → ℚ) (maxW : ℚ) (st : List Str × Str) (c : Char) :
    (blwStep m maxW st c).2 ≠ [] := by
  simp only [blwStep]
  split_ifs <;> simp

theorem blwFold_snd_ne_nil (m : Str → ℚ) (maxW : ℚ) :
    ∀ (cs : Str) (st : List Str × Str), st.2 ≠ [] →
      (cs.foldl (blwStep m maxW) st).2 ≠ [] := by
  intro cs
  induction cs with
  | nil => intro st h; exact h
  | cons c cs ih =>
    intro st _
    exact ih (blwStep m maxW st c) (blwStep_snd_ne_nil m maxW st c)

theorem breakLongWord_ne_nil (m : Str → ℚ) (maxW : ℚ) (w : Str) (hw : w ≠ []) :
    breakLongWord m maxW w ≠ [] := by
  obtain ⟨c, cs, rfl⟩ : ∃ c cs, w = c :: cs := by
    cases w with
    | nil => exact absurd rfl hw
    | cons c cs => exact ⟨c, cs, rfl⟩
  unfold breakLongWord
  have h2 : ((c :: cs).foldl (blwStep m maxW) ([], [])).2 ≠ [] := by
    show ((cs.foldl (blwStep m maxW) (blwStep m maxW ([], []) c))).2 ≠ []
    exact blwFold_snd_ne_nil m maxW cs _ (blwStep_snd_ne_nil m maxW ([], []) c)
  simp only [if_pos h2]
  simp

/-- A non-whitespace member survives `dropWhile isPySpace`. -/
theorem exists_mem_dropWhile_pySpace (s : Str) (h : ∃ c ∈ s, isPySpace c = false) :
    ∃ c ∈ s.dropWhile isPySpace, isPySpace c = false := by
  induction s with
  | nil => simpa using h
  | cons a s ih =>
    by_cases ha : isPySpace a
    · rw [List.dropWhile_cons_of_pos ha]
      refine ih ?_
      obtain ⟨c, hc, hcf⟩ := h
      rcases List.mem_cons.mp hc with rfl | hmem
      · rw [ha] at hcf; cases hcf
      · exact ⟨c, hmem, hcf⟩
    · rw [List.dropWhile_cons_of_neg ha]
      exact ⟨a, List.mem_cons_self a s, Bool.not_eq_true _ ▸ (by simpa using ha)⟩

/-- A non-whitespace member survives `pyStrip`. -/
theorem exists_mem_pyStrip (s : Str) (h : ∃ c ∈ s, isPySpace c = false) :
    ∃ c ∈ pyStrip s, isPySpace c = false := by
  unfold pyStrip
  have h1 := exists_mem_dropWhile_pySpace s h
  have h2 : ∃ c ∈ (s.dropWhile isPySpace).reverse, isPySpace c = false := by
    obtain ⟨c, hc, hcf⟩ := h1
    exact ⟨c, List.mem_reverse.mpr hc, hcf⟩
  have h3 := exists_mem_dropWhile_pySpace _ h2
  obtain ⟨c, hc, hcf⟩ := h3
  exact ⟨c, List.mem_reverse.mpr hc, hcf⟩

theorem pyStrip_ne_nil (s : Str) (h : ∃ c ∈ s, isPySpace c = false) :
    pyStrip s ≠ [] := by
  obtain ⟨c, hc, _⟩ := exists_mem_pyStrip s h
  intro hnil
  rw [hnil] at hc
  exact absurd hc (List.not_mem_nil c)

/-- Invariant: once the wrap state holds a visible character (in a closed
line or in the current line), it keeps holding one. -/
def wrapStateVisible (st : List Str × Str) : Prop :=
  st.1 ≠ [] ∨ ∃ c ∈ st.2, isPySpace c = false

theorem wrapStep_preserves_visible (m : Str → ℚ) (maxW : ℚ) (st : List Str × Str)
    (w : Str) (h : wrapStateVisible st) :
    wrapStateVisible (wrapStep m maxW st w) := by
  unfold wrapStateVisible at h ⊢
  simp only [wrapStep]
  split_ifs with h1 h2 h3 h4 h5 h6 h7 h8
  · left; simp
  · rcases h with h | ⟨c, hc, _⟩
    · exact Or.inl h
    · rw [not_not] at h2
      rw [h2] at hc
      exact absurd hc (List.not_mem_nil c)
  · exact h
  · rcases h with h | ⟨c, hc, hcf⟩
    · exact Or.inl h
    · right
      exact exists_mem_pyStrip _ ⟨c, by simp [hc], hcf⟩
  · left; simp
  · left; simp
  · rcases h with h | ⟨c, hc, _⟩
    · exact Or.inl h
    · rw [not_not] at h4
      rw [h4] at hc
      exact absurd hc (List.not_mem_nil c)
  · left
    simp only [ne_eq, List.append_eq_nil, not_and]
    intro _
    exact breakLongWord_ne_nil m maxW w h3
  · rcases h with h | ⟨c, hc, _⟩
    · exact Or.inl h
    · rw [not_not] at h4
      rw [h4] at hc
      exact absurd hc (List.not_mem_nil c)

theorem wrapFold_preserves_visible (m : Str → ℚ) (maxW : ℚ) :
    ∀ (ws : List Str) (st : List Str × Str), wrapStateVisible st →
      wrapStateVisible (ws.foldl (wrapStep m maxW) st) := by
  intro ws
  induction ws with
  | nil => intro st h; exact h
  | cons w ws ih =>
    intro st h
    exact ih _ (wrapStep_preserves_visible m maxW st w h)

/-- Feeding a word with a visible character into the wrap loop makes the
state visible, whatever the state was before. -/
theorem wrapStep_visible_of_word (m : Str → ℚ) (maxW : ℚ) (st : List Str × Str)
    (w : Str) (hw : ∃ c ∈ w, isPySpace c = false) :
    wrapStateVisible (wrapStep m maxW st w) := by
  unfold wrapStateVisible
  simp only [wrapStep]
  split_ifs with h1 h2 h3 h4 h5 h6 h7 h8
  · exfalso
    obtain ⟨c, hc, hcf⟩ := hw
    rw [h1] at hc
    simp at hc
    rw [hc] at hcf
    simp [isPySpace] at hcf
  · exfalso
    obtain ⟨c, hc, hcf⟩ := hw
    rw [h1] at hc
    simp at hc
    rw [hc] at hcf
    simp [isPySpace] at hcf
  · exfalso
    obtain ⟨c, hc, _⟩ := hw
    rw [h3] at hc
    exact absurd hc (List.not_mem_nil c)
  · right
    obtain ⟨c, hc, hcf⟩ := hw
    exact exists_mem_pyStrip _ ⟨c, by simp [hc], hcf⟩
  · left; simp
  · left; simp
  · right; exact hw
  · left
    simp only [ne_eq, List.append_eq_nil, not_and]
    intro _
    have hemp : w ≠ [] := by
      rintro rfl
      obtain ⟨c, hc, _⟩ := hw
      exact absurd hc (List.not_mem_nil c)
    exact breakLongWord_ne_nil m maxW w hemp
  · right; exact hw

/-- A character of the text survives into `replaceNl text`. -/
theorem mem_replaceNl (t : Str) (c : Char) (h : c ∈ t) : c ∈ replaceNl t := by
  induction t with
  | nil => exact absurd h (List.not_mem_nil c)
  | cons a t ih =>
    rcases List.mem_cons.mp h with rfl | hmem
    · unfold replaceNl
      split
      · rename_i ha; rw [ha]; simp
      · simp
    · unfold replaceNl
      split
      · simp [ih hmem]
      · simp [ih hmem]

/-- A non-space character of a string lands in one of its `split(" ")`
tokens. -/
theorem mem_splitSp (s : Str) (c : Char) (h : c ∈ s) (hc : c ≠ ' ') :
    ∃ w ∈ splitSp s, c ∈ w := by
  induction s with
  | nil => exact absurd h (List.not_mem_nil c)
  | cons a s ih =>
    unfold splitSp
    rcases List.mem_cons.mp h with rfl | hmem
    · rw [if_neg hc]
      rcases hsp : splitSp s with _ | ⟨t, ts⟩
      · exact ⟨[c], by simp, by simp⟩
      · exact ⟨c :: t, by simp, by simp⟩
    · obtain ⟨w, hw, hcw⟩ := ih hmem
      by_cases ha : a = ' '
      · rw [if_pos ha]
        exact ⟨w, by simp [hw], hcw⟩
      · rw [if_neg ha]
        rcases hsp : splitSp s with _ | ⟨t, ts⟩
        · rw [hsp] at hw; exact absurd hw (List.not_mem_nil w)
        · rw [hsp] at hw
          rcases List.mem_cons.mp hw with rfl | hmem2
          · exact ⟨a :: w, by simp, by simp [hcw]⟩
          · exact ⟨w, by simp [hmem2], hcw⟩

/-- A visible character of the text lands in one of its wrap tokens. -/
theorem tokens_visible (t : Str) (h : hasVisibleChar t) :
    ∃ w ∈ tokens t, ∃ c ∈ w, isPySpace c = false := by
  obtain ⟨c, hc, hcf⟩ := h
  have hsp : c ≠ ' ' := by
    rintro rfl; simp [isPySpace] at hcf
  obtain ⟨w, hw, hcw⟩ := mem_splitSp (replaceNl t) c (mem_replaceNl t c hc) hsp
  exact ⟨w, hw, c, hcw, hcf⟩

/-- The wrapped line sequence of a text with a visible character is never
empty, at every measure and width. -/
theorem wrapM_ne_nil (m : Str → ℚ) (maxW : ℚ) (t : Str) (h : hasVisibleChar t) :
    wrapM m maxW t ≠ [] := by
  have hne : t ≠ [] := by
    rintro rfl
    obtain ⟨c, hc, _⟩ := h
    exact absurd hc (List.not_mem_nil c)
  unfold wrapM
  rw [if_neg hne]
  obtain ⟨w, hw, hcw⟩ := tokens_visible t h
  obtain ⟨l1, l2, heq⟩ := List.append_of_mem hw
  rw [heq, List.foldl_append]
  have hvis : wrapStateVisible ((w :: l2).foldl (wrapStep m maxW) (l1.foldl (wrapStep m maxW) ([], []))) := by
    show wrapStateVisible (l2.foldl (wrapStep m maxW) (wrapStep m maxW _ w))
    exact wrapFold_preserves_visible m maxW l2 _ (wrapStep_visible_of_word m maxW _ w hcw)
  rcases hvis with hl | ⟨c, hc, _⟩
  · unfold finishWrap
    split
    · simp
    · exact hl
  · have h2 : ((w :: l2).foldl (wrapStep m maxW) (l1.foldl (wrapStep m maxW) ([], []))).2 ≠ [] := by
      intro hnil
      rw [hnil] at hc
      exact absurd hc (List.not_mem_nil c)
    unfold finishWrap
    rw [if_pos h2]
    simp

/-! ### Lemmas about the shrink loop -/

/-- If no size at or above the minimum fits, the shrink loop reports
failure, whatever the fuel and the starting size. -/
theorem fitShrink_none_of_never_fits (sw : Str → ℚ → ℚ) (text : Str)
    (maxW maxH mS sp : ℚ)
    (hnever : ∀ σ : ℚ, mS ≤ σ →
      ¬ (calculate_text_height (wrap_text sw text maxW σ) σ sp ≤ maxH)) :
    ∀ (fuel : Nat) (σ : ℚ), fitShrink sw text maxW maxH mS sp fuel σ = none := by
  intro fuel
  induction fuel with
  | zero => intro σ; rfl
  | succ fuel ih =>
    intro σ
    simp only [fitShrink]
    split_ifs with h1 h2
    · rfl
    · exact absurd h2 (hnever σ (not_lt.mp h1))
    · exact ih (σ - 1)

/-- Everything the shrink loop guarantees when it succeeds: the returned
lines are the wrap at the returned size, that size fits, it is at least the
minimum, and it is the start size minus a number of unit steps none of whose
earlier sizes fit. -/
theorem fitShrink_some_spec (sw : Str → ℚ → ℚ) (text : Str) (maxW maxH mS sp : ℚ) :
    ∀ (fuel : Nat) (σ : ℚ) (L : List Str) (s : ℚ),
      fitShrink sw text maxW maxH mS sp fuel σ = some (L, s) →
      L = wrap_text sw text maxW s ∧
      calculate_text_height L s sp ≤ maxH ∧ mS ≤ s ∧
      ∃ j : ℕ, s = σ - j ∧ ∀ i : ℕ, i < j →
        ¬ (calculate_text_height (wrap_text sw text maxW (σ - i)) (σ - i) sp ≤ maxH) := by
  intro fuel
  induction fuel with
  | zero => intro σ L s h; cases h
  | succ fuel ih =>
    intro σ L s h
    simp only [fitShrink] at h
    by_cases h1 : σ < mS
    · rw [if_pos h1] at h
      cases h
    · rw [if_neg h1] at h
      by_cases h2 : calculate_text_height (wrap_text sw text maxW σ) σ sp ≤ maxH
      · rw [if_pos h2] at h
        have hL : wrap_text sw text maxW σ = L := congrArg Prod.fst (Option.some.inj h)
        have hs : σ = s := congrArg Prod.snd (Option.some.inj h)
        subst hL
        subst hs
        exact ⟨rfl, h2, not_lt.mp h1, 0, by simp, fun i hi => absurd hi (by omega)⟩
      · rw [if_neg h2] at h
        obtain ⟨hL, hfit, hmin, j, hj, hall⟩ := ih (σ - 1) L s h
        refine ⟨hL, hfit, hmin, j + 1, ?_, ?_⟩
        · rw [hj]; push_cast; ring
        · intro i hi
          cases i with
          | zero => simpa using h2
          | succ i =>
            have hc : σ - (↑(i + 1) : ℚ) = σ - 1 - i := by push_cast; ring
            rw [hc]
            exact hall i (by omega)

/-- When the shrink loop fails, no size reachable within the fuel fits. -/
theorem fitShrink_none_spec (sw : Str → ℚ → ℚ) (text : Str) (maxW maxH mS sp : ℚ) :
    ∀ (fuel : Nat) (σ : ℚ), fitShrink sw text maxW maxH mS sp fuel σ = none →
      ∀ j : ℕ, j < fuel → mS ≤ σ - j →
        ¬ (calculate_text_height (wrap_text sw text maxW (σ - j)) (σ - j) sp ≤ maxH) := by
  intro fuel
  induction fuel with
  | zero => intro σ _ j hj; omega
  | succ fuel ih =>
    intro σ h j hj hmin
    simp only [fitShrink] at h
    by_cases h1 : σ < mS
    · exfalso
      have hj0 : (0:ℚ) ≤ j := by positivity
      have hle : σ - j ≤ σ := by linarith
      exact absurd (le_trans hmin hle) (not_le.mpr h1)
    · rw [if_neg h1] at h
      by_cases h2 : calculate_text_height (wrap_text sw text maxW σ) σ sp ≤ maxH
      · rw [if_pos h2] at h
        cases h
      · rw [if_neg h2] at h
        cases j with
        | zero => simpa using h2
        | succ j =>
          have hc : σ - (↑(j + 1) : ℚ) = σ - 1 - j := by push_cast; ring
          rw [hc]
          rw [hc] at hmin
          exact ih (σ - 1) h j (by omega) hmin

/-- Any number of unit decrements that stays at or above the minimum size is
within the fuel budget of the shrink loop. -/
theorem lt_shrinkFuel (initS mS : ℚ) (k : ℕ) (hk : mS ≤ initS - k) :
    k < shrinkFuel initS mS := by
  have h1 : (k : ℚ) ≤ initS - mS := by linarith
  have h2 : (k : ℤ) ≤ ⌈initS - mS⌉ := by
    have := le_trans h1 (Int.le_ceil (initS - mS))
    exact_mod_cast this
  unfold shrinkFuel
  rw [Int.lt_toNat]
  push_cast
  omega

/-- The shape of `fit_text_to_box` on the branch where the shrink loop
succeeds. -/
theorem fit_shrink_eq (sw : Str → ℚ → ℚ) (text : Str) (maxW maxH iS mS sp : ℚ)
    (hne : text ≠ []) (L : List Str) (s : ℚ)
    (hsome : fitShrink sw text maxW maxH mS sp (shrinkFuel iS mS) iS = some (L, s)) :
    fit_text_to_box sw text maxW maxH iS mS sp = (L, s, false) := by
  unfold fit_text_to_box
  rw [if_neg hne, hsome]

/-- The shape of `fit_text_to_box` on the branch where the shrink loop
fails and the truncation block runs. -/
theorem fit_truncation_eq (sw : Str → ℚ → ℚ) (text : Str) (maxW maxH iS mS sp : ℚ)
    (hne : text ≠ [])
    (hnone : fitShrink sw text maxW maxH mS sp (shrinkFuel iS mS) iS = none) :
    fit_text_to_box sw text maxW maxH iS mS sp =
      ((truncatePart (fun s => sw s mS) maxW (wrap_text sw text maxW mS)
          (pyInt (maxH / (mS * sp)))).1,
       mS,
       (truncatePart (fun s => sw s mS) maxW (wrap_text sw text maxW mS)
          (pyInt (maxH / (mS * sp)))).2) := by
  unfold fit_text_to_box
  rw [if_neg hne, hnone]

/-! ### Lemmas about the truncation block -/

/-- The ellipsis-shortening loop stops only when the line is exhausted or
when the line plus the ellipsis fits. -/
theorem shortenRevStr_post (m : Str → ℚ) (maxW : ℚ) :
    ∀ s : Str, shortenRevStr m maxW s = [] ∨
      ¬ (maxW < m ((shortenRevStr m maxW s).reverse ++ ['…'])) := by
  intro s
  induction s with
  | nil => left; rfl
  | cons c rest ih =>
    unfold shortenRevStr
    split_ifs with h
    · exact ih
    · right; exact h

theorem shortenForEllipsis_post (m : Str → ℚ) (maxW : ℚ) (lastLine : Str) :
    shortenForEllipsis m maxW lastLine = [] ∨
      m (shortenForEllipsis m maxW lastLine ++ ['…']) ≤ maxW := by
  unfold shortenForEllipsis
  rcases shortenRevStr_post m maxW lastLine.reverse with h | h
  · left; rw [h]; rfl
  · right; rw [not_lt] at h; exact h

/-- What the truncation block guarantees whenever it truncates and returns a
non-empty list: the last line is something followed by the ellipsis, and if
the ellipsis alone fits the width then the whole last line does. -/
theorem truncatePart_spec (m : Str → ℚ) (maxW : ℚ) (lines : List Str) (maxLines : ℤ)
    (ht : (truncatePart m maxW lines maxLines).2 = true)
    (hne : (truncatePart m maxW lines maxLines).1 ≠ []) :
    ∃ l pre, (truncatePart m maxW lines maxLines).1.getLast? = some l ∧
      l = pre ++ ['…'] ∧ (m ['…'] ≤ maxW → m l ≤ maxW) := by
  by_cases h1 : maxLines < (lines.length : ℤ)
  · have heq : truncatePart m maxW lines maxLines =
        (if pySliceTo lines maxLines ≠ [] then
          (pySliceTo lines maxLines).dropLast ++
            [shortenForEllipsis m maxW ((pySliceTo lines maxLines).getLast!) ++ ['…']]
         else pySliceTo lines maxLines, true) := by
      unfold truncatePart
      rw [if_pos h1]
    rw [heq] at hne ⊢
    by_cases hkept : pySliceTo lines maxLines = []
    · exfalso
      apply hne
      rw [if_neg (not_not_intro hkept)]
      exact hkept
    · rw [if_pos hkept]
      refine ⟨_, shortenForEllipsis m maxW ((pySliceTo lines maxLines).getLast!), ?_, rfl, ?_⟩
      · simp
      · intro hell
        rcases shortenForEllipsis_post m maxW ((pySliceTo lines maxLines).getLast!) with h | h
        · rw [h]; simpa using hell
        · exact h
  · unfold truncatePart at ht
    rw [if_neg h1] at ht
    cases ht

/-! ### Claim theorems: C9, C3, C2 -/

/-- Claim C9: empty-input behaviour.  `wrap_text` of the empty string is the
empty line sequence; `fit_text_to_box` of the empty string returns the empty
sequence at the initial size, untruncated; consequently the composer's team
block emits no truncation warning for an empty team text. -/
theorem C9_empty_input (sw : Str → ℚ → ℚ)
    (maxW fontSize maxH initS minS sp tcw tmh bs : ℚ) :
    wrap_text sw [] maxW fontSize = [] ∧
    fit_text_to_box sw [] maxW maxH initS minS sp = ([], initS, false) ∧
    teamTruncated sw [] tcw tmh bs minS sp = false :=
  ⟨rfl, rfl, rfl⟩

/-- Counterexample to claim C3 as stated: the zero-area box with
`max_width = 0` and `max_height = 5` on the non-empty text `"a"` (with
`initial_size = min_size = 1 > 0`, `spacing = 1 > 0`) yields a NON-empty
line sequence with `truncated = false`, because a zero width only forces
character-breaking while the height still fits. -/
theorem C3_counterexample :
    (fit_text_to_box cm ['a'] 0 5 1 1 1).1 ≠ [] ∧
    (fit_text_to_box cm ['a'] 0 5 1 1 1).2.2 = false := by
  norm_num +decide [fit_text_to_box, fitShrink, shrinkFuel, wrap_text, wrapM, tokens, splitSp,
    replaceNl, finishWrap, wrapStep, blwStep, breakLongWord, cm, charW, pyStrip, isPySpace,
    calculate_text_height, pyInt, pySliceTo, truncatePart, shortenForEllipsis, shortenRevStr]

/-- Claim C3, amended: for a text with at least one visible (non-whitespace)
character — rather than merely a non-empty text, since whitespace-only texts
wrap to zero lines and fit untruncated — and a box whose height budget admits
zero lines at the minimum size (`0 ≤ max_height < min_size * spacing`, which
is exactly `max_lines = 0` and in particular covers every `max_height = 0`
box; a zero `max_width` alone does NOT force this), `fit_text_to_box`
terminates without dividing by zero and returns the empty line sequence at
the minimum size with `truncated = true`. -/
theorem C3_degenerate_box (sw : Str → ℚ → ℚ) (text : Str) (maxW maxH iS mS sp : ℚ)
    (hvis : hasVisibleChar text)
    (hinit : mS ≤ iS) (hmin : 0 < mS) (hsp : 0 < sp)
    (hH0 : 0 ≤ maxH) (hH1 : maxH < mS * sp) :
    fit_text_to_box sw text maxW maxH iS mS sp = ([], mS, true) := by
  have hne : text ≠ [] := by
    rintro rfl
    obtain ⟨c, hc, _⟩ := hvis
    exact absurd hc (List.not_mem_nil c)
  have hnever : ∀ σ : ℚ, mS ≤ σ →
      ¬ (calculate_text_height (wrap_text sw text maxW σ) σ sp ≤ maxH) := by
    intro σ hσ
    have hσpos : 0 < σ := lt_of_lt_of_le hmin hσ
    have hlines : wrap_text sw text maxW σ ≠ [] := wrapM_ne_nil _ _ _ hvis
    rw [calculate_text_height_eq, not_le]
    have hlen : (1:ℚ) ≤ ((wrap_text sw text maxW σ).length : ℚ) := by
      have h1 : 1 ≤ (wrap_text sw text maxW σ).length :=
        Nat.one_le_iff_ne_zero.mpr (fun h0 => hlines (List.length_eq_zero.mp h0))
      exact_mod_cast h1
    have h1 : σ * sp ≤ ((wrap_text sw text maxW σ).length : ℚ) * (σ * sp) :=
      le_mul_of_one_le_left (mul_nonneg hσpos.le hsp.le) hlen
    have h2 : mS * sp ≤ σ * sp := mul_le_mul_of_nonneg_right hσ hsp.le
    linarith
  have hnone := fitShrink_none_of_never_fits sw text maxW maxH mS sp hnever
    (shrinkFuel iS mS) iS
  rw [fit_truncation_eq sw text maxW maxH iS mS sp hne hnone]
  have hml : pyInt (maxH / (mS * sp)) = 0 := by
    unfold pyInt
    rw [if_pos (by positivity)]
    rw [Int.floor_eq_zero_iff]
    constructor
    · positivity
    · rw [div_lt_one (by positivity)]
      exact hH1
  have hlines : wrap_text sw text maxW mS ≠ [] := wrapM_ne_nil _ _ _ hvis
  have hlen : 0 < (wrap_text sw text maxW mS).length :=
    Nat.pos_of_ne_zero (fun h0 => hlines (List.length_eq_zero.mp h0))
  rw [hml]
  unfold truncatePart
  rw [if_pos (by exact_mod_cast hlen)]
  have hkept : pySliceTo (wrap_text sw text maxW mS) (0:ℤ) = [] := by
    unfold pySliceTo
    rw [if_pos le_rfl]
    simp
  rw [hkept]
  simp

/-- Witness for C3 (amended): the text `"a"` in a `10 × 0` box at sizes
`initial = 2 ≥ min = 1 > 0`, spacing 1. -/
theorem C3_degenerate_box_witness :
    fit_text_to_box cm ['a'] 10 0 2 1 1 = ([], 1, true) :=
  C3_degenerate_box cm ['a'] 10 0 2 1 1 ⟨'a', by simp, by decide⟩
    (by norm_num) (by norm_num) (by norm_num) (by norm_num) (by norm_num)

/-- Counterexample to claim C2 as stated: with `max_width = 0` (legal by the
spec's own degenerate-rect invariant) the text `"a b"` truncates to the
single line `"…"`, whose measured width `1` exceeds `max_width = 0`: the
ellipsis itself need not fit. -/
theorem C2_counterexample :
    (fit_text_to_box cm ['a', ' ', 'b'] 0 1 1 1 1).2.2 = true ∧
    (fit_text_to_box cm ['a', ' ', 'b'] 0 1 1 1 1).1 = [['…']] ∧
    ¬ (cm ['…'] (fit_text_to_box cm ['a', ' ', 'b'] 0 1 1 1 1).2.1 ≤ 0) := by
  norm_num +decide [fit_text_to_box, fitShrink, shrinkFuel, wrap_text, wrapM, tokens, splitSp,
    replaceNl, finishWrap, wrapStep, blwStep, breakLongWord, cm, charW, pyStrip, isPySpace,
    calculate_text_height, pyInt, pySliceTo, truncatePart, shortenForEllipsis, shortenRevStr]

/-- Claim C2, amended: whenever `fit_text_to_box` returns `truncated = true`
with a non-empty line list, the last returned line ends with the ellipsis
glyph; and provided the ellipsis alone fits `max_width` at the resolved size
(which the code does not guarantee when even `"…"` overflows the box), the
measured width of that last line at the resolved size does not exceed
`max_width`. -/
theorem C2_truncation_postcondition (sw : Str → ℚ → ℚ) (text : Str)
    (maxW maxH iS mS sp : ℚ)
    (ht : (fit_text_to_box sw text maxW maxH iS mS sp).2.2 = true)
    (hne : (fit_text_to_box sw text maxW maxH iS mS sp).1 ≠ []) :
    ∃ l pre, (fit_text_to_box sw text maxW maxH iS mS sp).1.getLast? = some l ∧
      l = pre ++ ['…'] ∧
      (sw ['…'] (fit_text_to_box sw text maxW maxH iS mS sp).2.1 ≤ maxW →
        sw l (fit_text_to_box sw text maxW maxH iS mS sp).2.1 ≤ maxW) := by
  by_cases htext : text = []
  · rw [htext] at ht
    cases ht
  · cases hm : fitShrink sw text maxW maxH mS sp (shrinkFuel iS mS) iS with
    | some p =>
      obtain ⟨L, s⟩ := p
      rw [fit_shrink_eq sw text maxW maxH iS mS sp htext L s hm] at ht
      cases ht
    | none =>
      rw [fit_truncation_eq sw text maxW maxH iS mS sp htext hm] at ht hne ⊢
      exact truncatePart_spec _ maxW _ _ ht hne

/-- Witness for C2 (amended): the text `"a b"` in a `1 × 1` box at size 1
truncates to the single line `"…"`, which ends with the ellipsis and fits. -/
theorem C2_truncation_postcondition_witness :
    ∃ l pre, (fit_text_to_box cm ['a', ' ', 'b'] 1 1 1 1 1).1.getLast? = some l ∧
      l = pre ++ ['…'] ∧
      (cm ['…'] (fit_text_to_box cm ['a', ' ', 'b'] 1 1 1 1 1).2.1 ≤ 1 →
        cm l (fit_text_to_box cm ['a', ' ', 'b'] 1 1 1 1 1).2.1 ≤ 1) :=
  C2_truncation_postcondition cm ['a', ' ', 'b'] 1 1 1 1 1
    (by norm_num +decide [fit_text_to_box, fitShrink, shrinkFuel, wrap_text, wrapM, tokens, splitSp,
    replaceNl, finishWrap, wrapStep, blwStep, breakLongWord, cm, charW, pyStrip, isPySpace,
    calculate_text_height, pyInt, pySliceTo, truncatePart, shortenForEllipsis, shortenRevStr])
    (by norm_num +decide [fit_text_to_box, fitShrink, shrinkFuel, wrap_text, wrapM, tokens, splitSp,
    replaceNl, finishWrap, wrapStep, blwStep, breakLongWord, cm, charW, pyStrip, isPySpace,
    calculate_text_height, pyInt, pySliceTo, truncatePart, shortenForEllipsis, shortenRevStr])

/-! ### Claims C8 and C1: invariants of `fit_text_to_box` and minimal shrink -/

theorem pyInt_nonneg (q : ℚ) (h : 0 ≤ q) : 0 ≤ pyInt q := by
  unfold pyInt
  rw [if_pos h]
  exact Int.floor_nonneg.mpr h

theorem pyInt_le (q : ℚ) (h : 0 ≤ q) : (pyInt q : ℚ) ≤ q := by
  unfold pyInt
  rw [if_pos h]
  exact Int.floor_le q

/-- The truncation block never returns more than `maxLines` lines (for a
non-negative `maxLines`): it either keeps a list already within budget or
slices down to exactly the budget. -/
theorem truncatePart_length_le (m : Str → ℚ) (maxW : ℚ) (lines : List Str)
    (maxLines : ℤ) (h0 : 0 ≤ maxLines) :
    ((truncatePart m maxW lines maxLines).1.length : ℤ) ≤ maxLines := by
  simp only [truncatePart]
  by_cases h1 : maxLines < (lines.length : ℤ)
  · rw [if_pos h1]
    have hkeptlen : (pySliceTo lines maxLines).length ≤ maxLines.toNat := by
      unfold pySliceTo
      rw [if_pos h0]
      simpa using Nat.min_le_left _ _
    by_cases hkept : pySliceTo lines maxLines = []
    · rw [if_neg (not_not_intro hkept)]
      simpa [hkept] using h0
    · rw [if_pos hkept]
      have hlen1 : 1 ≤ (pySliceTo lines maxLines).length :=
        Nat.one_le_iff_ne_zero.mpr (fun hz => hkept (List.length_eq_zero.mp hz))
    -- `dropLast ++ [last']` has the same length as the non-empty kept list
      have : ((pySliceTo lines maxLines).dropLast ++
          [shortenForEllipsis m maxW ((pySliceTo lines maxLines).getLast!) ++ ['…']]).length
          = (pySliceTo lines maxLines).length := by
        rw [List.length_append, List.length_dropLast]
        simp
        omega
      rw [this]
      omega
  · rw [if_neg h1]
    exact not_lt.mp h1

/-- Claim C8: the fit-result budget invariant.  For `0 ≤ max_height`,
`initial_size ≥ min_size > 0` and `spacing > 0`, the returned size lies in
`[min_size, initial_size]` and `count(lines) * size * spacing ≤ max_height`,
on every return path (empty input, successful shrink, truncation, and the
truncation branch that keeps all lines alike). -/
theorem C8_fit_budget_invariant (sw : Str → ℚ → ℚ) (text : Str)
    (maxW maxH iS mS sp : ℚ)
    (hH : 0 ≤ maxH) (hinit : mS ≤ iS) (hmin : 0 < mS) (hsp : 0 < sp) :
    mS ≤ (fit_text_to_box sw text maxW maxH iS mS sp).2.1 ∧
    (fit_text_to_box sw text maxW maxH iS mS sp).2.1 ≤ iS ∧
    ((fit_text_to_box sw text maxW maxH iS mS sp).1.length : ℚ) *
      (fit_text_to_box sw text maxW maxH iS mS sp).2.1 * sp ≤ maxH := by
  by_cases htext : text = []
  · subst htext
    refine ⟨hinit, le_refl iS, ?_⟩
    show ((([] : List Str)).length : ℚ) * iS * sp ≤ maxH
    simpa using hH
  · cases hm : fitShrink sw text maxW maxH mS sp (shrinkFuel iS mS) iS with
    | some p =>
      obtain ⟨L, s⟩ := p
      obtain ⟨hL, hfit, hmin', j, hj, _⟩ :=
        fitShrink_some_spec sw text maxW maxH mS sp _ iS L s hm
      rw [fit_shrink_eq sw text maxW maxH iS mS sp htext L s hm]
      refine ⟨hmin', ?_, ?_⟩
      · show s ≤ iS
        have hj0 : (0:ℚ) ≤ (j:ℚ) := by positivity
        rw [hj]
        linarith
      · show ((L.length : ℚ)) * s * sp ≤ maxH
        rw [calculate_text_height_eq] at hfit
        calc ((L.length : ℚ)) * s * sp = (L.length : ℚ) * (s * sp) := by ring
        _ ≤ maxH := hfit
    | none =>
      rw [fit_truncation_eq sw text maxW maxH iS mS sp htext hm]
      refine ⟨le_refl mS, hinit, ?_⟩
      have hms : (0:ℚ) < mS * sp := by positivity
      have hq : (0:ℚ) ≤ maxH / (mS * sp) := div_nonneg hH hms.le
      have hml0 : 0 ≤ pyInt (maxH / (mS * sp)) := pyInt_nonneg _ hq
      have hlen := truncatePart_length_le (fun s => sw s mS) maxW
        (wrap_text sw text maxW mS) (pyInt (maxH / (mS * sp))) hml0
      have hlenQ : (((truncatePart (fun s => sw s mS) maxW (wrap_text sw text maxW mS)
          (pyInt (maxH / (mS * sp)))).1.length : ℚ)) ≤ (pyInt (maxH / (mS * sp)) : ℚ) := by
        exact_mod_cast hlen
      have h2 : (((truncatePart (fun s => sw s mS) maxW (wrap_text sw text maxW mS)
          (pyInt (maxH / (mS * sp)))).1.length : ℚ)) * (mS * sp)
          ≤ (maxH / (mS * sp)) * (mS * sp) :=
        mul_le_mul_of_nonneg_right (le_trans hlenQ (pyInt_le _ hq)) hms.le
      rw [div_mul_cancel₀ maxH hms.ne'] at h2
      calc (((truncatePart (fun s => sw s mS) maxW (wrap_text sw text maxW mS)
            (pyInt (maxH / (mS * sp)))).1.length : ℚ)) * mS * sp
          = (((truncatePart (fun s => sw s mS) maxW (wrap_text sw text maxW mS)
            (pyInt (maxH / (mS * sp)))).1.length : ℚ)) * (mS * sp) := by ring
        _ ≤ maxH := h2

/-- Witness for C8: the shrinking example `"aaaa"` in a `2 × 10` box from
size 4 down to 1 resolves at size 2 within all budgets. -/
theorem C8_fit_budget_invariant_witness :
    (1:ℚ) ≤ (fit_text_to_box cm ['a','a','a','a'] 2 10 4 1 1).2.1 ∧
    (fit_text_to_box cm ['a','a','a','a'] 2 10 4 1 1).2.1 ≤ 4 ∧
    ((fit_text_to_box cm ['a','a','a','a'] 2 10 4 1 1).1.length : ℚ) *
      (fit_text_to_box cm ['a','a','a','a'] 2 10 4 1 1).2.1 * 1 ≤ 10 :=
  C8_fit_budget_invariant cm ['a','a','a','a'] 2 10 4 1 1
    (by norm_num) (by norm_num) (by norm_num) (by norm_num)

/-- Claim C1: minimal-shrink correctness.  For a non-empty text and sizes
with `initial_size ≥ min_size > 0`, `spacing > 0`: if the wrapped height at
the initial size already fits, the fitter returns exactly the initial-size
wrap untruncated; and whenever some size `initial_size - k` of the descending
unit sequence (not going below `min_size`) fits, the fitter is untruncated
and resolves at a size of that sequence that is at least `initial_size - k`,
fits, and produced the returned lines — so no smaller-than-necessary size is
ever chosen. -/
theorem C1_minimal_shrink (sw : Str → ℚ → ℚ) (text : Str) (maxW maxH iS mS sp : ℚ)
    (htext : text ≠ []) (hinit : mS ≤ iS) (hmin : 0 < mS) (hsp : 0 < sp) :
    (calculate_text_height (wrap_text sw text maxW iS) iS sp ≤ maxH →
      fit_text_to_box sw text maxW maxH iS mS sp = (wrap_text sw text maxW iS, iS, false)) ∧
    (∀ k : ℕ, mS ≤ iS - k →
      calculate_text_height (wrap_text sw text maxW (iS - k)) (iS - k) sp ≤ maxH →
      (fit_text_to_box sw text maxW maxH iS mS sp).2.2 = false ∧
      iS - k ≤ (fit_text_to_box sw text maxW maxH iS mS sp).2.1 ∧
      ∃ j : ℕ, (fit_text_to_box sw text maxW maxH iS mS sp).2.1 = iS - j ∧
        mS ≤ (fit_text_to_box sw text maxW maxH iS mS sp).2.1 ∧
        calculate_text_height
          (wrap_text sw text maxW ((fit_text_to_box sw text maxW maxH iS mS sp).2.1))
          ((fit_text_to_box sw text maxW maxH iS mS sp).2.1) sp ≤ maxH ∧
        (fit_text_to_box sw text maxW maxH iS mS sp).1 =
          wrap_text sw text maxW ((fit_text_to_box sw text maxW maxH iS mS sp).2.1)) := by
  have main : ∀ k : ℕ, mS ≤ iS - k →
      calculate_text_height (wrap_text sw text maxW (iS - k)) (iS - k) sp ≤ maxH →
      (fit_text_to_box sw text maxW maxH iS mS sp).2.2 = false ∧
      iS - k ≤ (fit_text_to_box sw text maxW maxH iS mS sp).2.1 ∧
      ∃ j : ℕ, (fit_text_to_box sw text maxW maxH iS mS sp).2.1 = iS - j ∧
        mS ≤ (fit_text_to_box sw text maxW maxH iS mS sp).2.1 ∧
        calculate_text_height
          (wrap_text sw text maxW ((fit_text_to_box sw text maxW maxH iS mS sp).2.1))
          ((fit_text_to_box sw text maxW maxH iS mS sp).2.1) sp ≤ maxH ∧
        (fit_text_to_box sw text maxW maxH iS mS sp).1 =
          wrap_text sw text maxW ((fit_text_to_box sw text maxW maxH iS mS sp).2.1) := by
    intro k hk hfits
    cases hm : fitShrink sw text maxW maxH mS sp (shrinkFuel iS mS) iS with
    | none =>
      exact absurd hfits
        (fitShrink_none_spec sw text maxW maxH mS sp _ iS hm k (lt_shrinkFuel iS mS k hk) hk)
    | some p =>
      obtain ⟨L, s⟩ := p
      obtain ⟨hL, hfit, hmin', j, hj, hall⟩ :=
        fitShrink_some_spec sw text maxW maxH mS sp _ iS L s hm
      rw [fit_shrink_eq sw text maxW maxH iS mS sp htext L s hm]
      have hjk : j ≤ k := by
        by_contra hlt
        push_neg at hlt
        exact absurd hfits (hall k hlt)
      have hjkQ : (j:ℚ) ≤ (k:ℚ) := by exact_mod_cast hjk
      refine ⟨rfl, ?_, j, hj, hmin', ?_, hL⟩
      · show iS - (k:ℚ) ≤ s
        rw [hj]
        linarith
      · show calculate_text_height (wrap_text sw text maxW s) s sp ≤ maxH
        rw [← hL]
        exact hfit
  refine ⟨?_, main⟩
  intro hfit0
  have h0 : mS ≤ iS - (0:ℕ) := by simpa using hinit
  have hfits0 : calculate_text_height (wrap_text sw text maxW (iS - (0:ℕ)))
      (iS - (0:ℕ)) sp ≤ maxH := by simpa using hfit0
  obtain ⟨htr, hge, j, hj, _, _, hlines⟩ := main 0 h0 hfits0
  have hj0 : (j:ℚ) = 0 := by
    have h1 : iS ≤ (fit_text_to_box sw text maxW maxH iS mS sp).2.1 := by simpa using hge
    have h2 : (0:ℚ) ≤ (j:ℚ) := by positivity
    rw [hj] at h1
    linarith
  have hsz : (fit_text_to_box sw text maxW maxH iS mS sp).2.1 = iS := by
    rw [hj, hj0, sub_zero]
  have hln : (fit_text_to_box sw text maxW maxH iS mS sp).1 = wrap_text sw text maxW iS := by
    rw [hlines, hsz]
  have hexp : fit_text_to_box sw text maxW maxH iS mS sp =
      ((fit_text_to_box sw text maxW maxH iS mS sp).1,
       (fit_text_to_box sw text maxW maxH iS mS sp).2.1,
       (fit_text_to_box sw text maxW maxH iS mS sp).2.2) := rfl
  rw [hexp, hln, hsz, htr]

/-- Witness for C1: the text `"a"` at width 10 and height 100, sizes 10 down
to 1: the unshrunk height fits, so the result is the size-10 wrap. -/
theorem C1_minimal_shrink_witness :
    fit_text_to_box cm ['a'] 10 100 10 1 1 = (wrap_text cm ['a'] 10 10, 10, false) :=
  (C1_minimal_shrink cm ['a'] 10 100 10 1 1 (by simp) (by norm_num) (by norm_num)
      (by norm_num)).1
    (by norm_num +decide [wrap_text, wrapM, tokens, splitSp,
      replaceNl, finishWrap, wrapStep, blwStep, breakLongWord, cm, charW, pyStrip, isPySpace,
      calculate_text_height])


/-! ### Claim C10: filename sanitization -/

theorem replacePairOnce_eq_self (a : Char) (s : Str)
    (h1 : ∀ (x y : Char) (rest : List Char), s = x :: y :: rest → False) :
    replacePairOnce a s = s := by
  cases s with
  | nil => rfl
  | cons x rest =>
    cases rest with
    | nil => rfl
    | cons y rest2 => exact absurd rfl (h1 x y rest2)

theorem mem_of_mem_replacePairOnce (a : Char) :
    ∀ (s : Str) (c : Char), c ∈ replacePairOnce a s → c ∈ s := by
  intro s
  induction s using replacePairOnce.induct a with
  | case1 x y rest hxy ih =>
    intro c hc
    rw [replacePairOnce, if_pos hxy] at hc
    rcases List.mem_cons.mp hc with rfl | hc2
    · rw [hxy.1]
      exact List.mem_cons_self _ _
    · exact List.mem_cons_of_mem _ (List.mem_cons_of_mem _ (ih c hc2))
  | case2 x y rest hxy ih =>
    intro c hc
    rw [replacePairOnce, if_neg hxy] at hc
    rcases List.mem_cons.mp hc with rfl | hc2
    · exact List.mem_cons_self _ _
    · exact List.mem_cons_of_mem _ (ih c hc2)
  | case3 s h1 =>
    intro c hc
    rwa [replacePairOnce_eq_self a s h1] at hc

theorem replacePairOnce_head (a : Char) :
    ∀ s : Str, (replacePairOnce a s).head? = s.head? := by
  intro s
  induction s using replacePairOnce.induct a with
  | case1 x y rest hxy ih =>
    rw [replacePairOnce, if_pos hxy]
    rw [hxy.1]
    rfl
  | case2 x y rest hxy ih =>
    rw [replacePairOnce, if_neg hxy]
    rfl
  | case3 s h1 => rw [replacePairOnce_eq_self a s h1]

theorem containsPair_cons (b z : Char) (t : Str) (h : containsPair b t = true) :
    containsPair b (z :: t) = true := by
  cases t with
  | nil => cases h
  | cons u t2 =>
    rw [containsPair]
    simp only [Bool.or_eq_true, decide_eq_true_eq]
    right
    exact h

theorem containsPair_replacePairOnce (a b : Char) :
    ∀ s : Str, containsPair b (replacePairOnce a s) = true → containsPair b s = true := by
  intro s
  induction s using replacePairOnce.induct a with
  | case1 x y rest hxy ih =>
    intro h
    rw [replacePairOnce, if_pos hxy] at h
    rcases hR : replacePairOnce a rest with _ | ⟨u, L⟩
    · rw [hR] at h; cases h
    · rw [hR, containsPair] at h
      simp only [Bool.or_eq_true, decide_eq_true_eq] at h
      rcases h with ⟨hab, hub⟩ | h2
      · -- the new pair straddles the replaced pair and the tail
        have hu : (replacePairOnce a rest).head? = rest.head? := replacePairOnce_head a rest
        rw [hR] at hu
        cases rest with
        | nil => cases hu
        | cons v rest2 =>
          have hv : u = v := by
            simp at hu
            exact hu
          rw [containsPair]
          simp only [Bool.or_eq_true, decide_eq_true_eq]
          right
          rw [containsPair]
          simp only [Bool.or_eq_true, decide_eq_true_eq]
          left
          exact ⟨hxy.2.trans hab, hv ▸ hub⟩
      · have := ih (hR ▸ h2)
        exact containsPair_cons b x _ (containsPair_cons b y _ this)
  | case2 x y rest hxy ih =>
    intro h
    rw [replacePairOnce, if_neg hxy] at h
    rcases hR : replacePairOnce a (y :: rest) with _ | ⟨u, L⟩
    · rw [hR] at h; cases h
    · rw [hR, containsPair] at h
      simp only [Bool.or_eq_true, decide_eq_true_eq] at h
      rcases h with ⟨hxb, hub⟩ | h2
      · have hu : (replacePairOnce a (y :: rest)).head? = (y :: rest).head? :=
          replacePairOnce_head a (y :: rest)
        rw [hR] at hu
        have hv : u = y := by
          simp at hu
          exact hu
        rw [containsPair]
        simp only [Bool.or_eq_true, decide_eq_true_eq]
        left
        exact ⟨hxb, hv ▸ hub⟩
      · have := ih (hR ▸ h2)
        exact containsPair_cons b x _ this
  | case3 s h1 =>
    intro h
    rwa [replacePairOnce_eq_self a s h1] at h

theorem replacePairOnce_length_le (a : Char) :
    ∀ s : Str, (replacePairOnce a s).length ≤ s.length := by
  intro s
  induction s using replacePairOnce.induct a with
  | case1 x y rest hxy ih =>
    rw [replacePairOnce, if_pos hxy]
    simp only [List.length_cons]
    omega
  | case2 x y rest hxy ih =>
    rw [replacePairOnce, if_neg hxy]
    simp only [List.length_cons]
    simp only [List.length_cons] at ih
    omega
  | case3 s h1 => rw [replacePairOnce_eq_self a s h1]

theorem replacePairOnce_length_lt (a : Char) :
    ∀ s : Str, containsPair a s = true → (replacePairOnce a s).length < s.length := by
  intro s
  induction s using replacePairOnce.induct a with
  | case1 x y rest hxy ih =>
    intro _
    rw [replacePairOnce, if_pos hxy]
    have := replacePairOnce_length_le a rest
    simp only [List.length_cons]
    omega
  | case2 x y rest hxy ih =>
    intro h
    rw [replacePairOnce, if_neg hxy]
    rw [containsPair] at h
    simp only [Bool.or_eq_true, decide_eq_true_eq] at h
    rcases h with h | h
    · exact absurd h hxy
    · have := ih h
      simp only [List.length_cons] at this ⊢
      omega
  | case3 s h1 =>
    intro h
    cases s with
    | nil => cases h
    | cons x rest =>
      cases rest with
      | nil => cases h
      | cons y rest2 => exact absurd rfl (h1 x y rest2)

theorem collapseGo_no_pair (a : Char) :
    ∀ (fuel : Nat) (s : Str), s.length ≤ fuel →
      containsPair a (collapseGo a fuel s) = false := by
  intro fuel
  induction fuel with
  | zero =>
    intro s hs
    have : s = [] := List.length_eq_zero.mp (Nat.le_zero.mp hs)
    subst this
    rfl
  | succ fuel ih =>
    intro s hs
    rw [collapseGo]
    by_cases h : containsPair a s = true
    · rw [if_pos h]
      exact ih _ (by have := replacePairOnce_length_lt a s h; omega)
    · rw [if_neg h]
      exact Bool.eq_false_iff.mpr h

theorem collapsePairs_no_pair (a : Char) (s : Str) :
    containsPair a (collapsePairs a s) = false :=
  collapseGo_no_pair a s.length s le_rfl

theorem containsPair_collapseGo (a b : Char) :
    ∀ (fuel : Nat) (s : Str), containsPair b (collapseGo a fuel s) = true →
      containsPair b s = true := by
  intro fuel
  induction fuel with
  | zero => intro s h; exact h
  | succ fuel ih =>
    intro s h
    rw [collapseGo] at h
    split_ifs at h with hc
    · exact containsPair_replacePairOnce a b s (ih _ h)
    · exact h

theorem mem_of_mem_collapseGo (a : Char) :
    ∀ (fuel : Nat) (s : Str) (c : Char), c ∈ collapseGo a fuel s → c ∈ s := by
  intro fuel
  induction fuel with
  | zero => intro s c h; exact h
  | succ fuel ih =>
    intro s c h
    rw [collapseGo] at h
    split_ifs at h with hc
    · exact mem_of_mem_replacePairOnce a s c (ih _ c h)
    · exact h

/-- `containsPair` as an explicit decomposition. -/
theorem containsPair_iff (a : Char) :
    ∀ s : Str, containsPair a s = true ↔ ∃ l r : Str, s = l ++ a :: a :: r := by
  intro s
  induction s with
  | nil =>
    constructor
    · intro h; cases h
    · rintro ⟨l, r, h⟩
      exact absurd h.symm (by simp)
  | cons x rest ih =>
    cases rest with
    | nil =>
      constructor
      · intro h; cases h
      · rintro ⟨l, r, h⟩
        rcases l with _ | ⟨z, l2⟩
        · simp at h
        · simp at h
    | cons y rest2 =>
      rw [containsPair]
      simp only [Bool.or_eq_true, decide_eq_true_eq]
      constructor
      · rintro (⟨rfl, rfl⟩ | h)
        · exact ⟨[], rest2, rfl⟩
        · obtain ⟨l, r, hlr⟩ := ih.mp h
          exact ⟨x :: l, r, by rw [List.cons_append, hlr]⟩
      · rintro ⟨l, r, hlr⟩
        rcases l with _ | ⟨z, l2⟩
        · simp only [List.nil_append, List.cons.injEq] at hlr
          exact Or.inl ⟨hlr.1, hlr.2.1⟩
        · simp only [List.cons_append, List.cons.injEq] at hlr
          exact Or.inr (ih.mpr ⟨l2, r, hlr.2⟩)

theorem containsPair_reverse (a : Char) (s : Str) :
    containsPair a s.reverse = containsPair a s := by
  rw [Bool.eq_iff_iff, containsPair_iff, containsPair_iff]
  constructor
  · rintro ⟨l, r, h⟩
    refine ⟨r.reverse, l.reverse, ?_⟩
    have := congrArg List.reverse h
    rw [List.reverse_reverse] at this
    rw [this]
    simp
  · rintro ⟨l, r, h⟩
    refine ⟨r.reverse, l.reverse, ?_⟩
    rw [h]
    simp

theorem containsPair_dropWhile (p : Char → Bool) (a : Char) :
    ∀ s : Str, containsPair a (s.dropWhile p) = true → containsPair a s = true := by
  intro s
  induction s with
  | nil => intro h; exact h
  | cons x rest ih =>
    intro h
    by_cases hx : p x
    · rw [List.dropWhile_cons_of_pos hx] at h
      exact containsPair_cons a x rest (ih h)
    · rwa [List.dropWhile_cons_of_neg hx] at h

theorem containsPair_take (a : Char) (n : Nat) (s : Str)
    (h : containsPair a (s.take n) = true) : containsPair a s = true := by
  rw [containsPair_iff] at h ⊢
  obtain ⟨l, r, hlr⟩ := h
  refine ⟨l, r ++ s.drop n, ?_⟩
  conv_lhs => rw [← List.take_append_drop n s]
  rw [hlr]
  simp

theorem containsPair_pyStripSet (p : Char → Bool) (a : Char) (s : Str)
    (h : containsPair a (pyStripSet p s) = true) : containsPair a s = true := by
  unfold pyStripSet at h
  rw [containsPair_reverse] at h
  have h2 := containsPair_dropWhile p a _ h
  rw [containsPair_reverse] at h2
  exact containsPair_dropWhile p a _ h2

theorem mem_of_mem_pyStripSet (p : Char → Bool) (s : Str) (c : Char)
    (h : c ∈ pyStripSet p s) : c ∈ s := by
  unfold pyStripSet at h
  rw [List.mem_reverse] at h
  have h2 := (List.dropWhile_sublist p).mem h
  rw [List.mem_reverse] at h2
  exact (List.dropWhile_sublist p).mem h2

theorem foldl_replaceChar_mem :
    ∀ (ts : List Char) (s : Str) (c : Char),
      c ∈ ts.foldl (fun r t => replaceChar t r) s →
      c = '_' ∨ (c ∈ s ∧ c ∉ ts) := by
  intro ts
  induction ts with
  | nil =>
    intro s c h
    exact Or.inr ⟨h, List.not_mem_nil c⟩
  | cons t ts ih =>
    intro s c h
    rcases ih (replaceChar t s) c h with h1 | ⟨h2, h3⟩
    · exact Or.inl h1
    · unfold replaceChar at h2
      rw [List.mem_map] at h2
      obtain ⟨b, hb, hbc⟩ := h2
      by_cases hbt : b = t
      · rw [if_pos hbt] at hbc
        exact Or.inl hbc.symm
      · rw [if_neg hbt] at hbc
        subst hbc
        refine Or.inr ⟨hb, ?_⟩
        intro hmem
        rcases List.mem_cons.mp hmem with rfl | hmem2
        · exact hbt rfl
        · exact h3 hmem2

theorem head?_dropWhile_not (p : Char → Bool) :
    ∀ (l : Str) (c : Char), (l.dropWhile p).head? = some c → p c = false := by
  intro l
  induction l with
  | nil => intro c h; cases h
  | cons x rest ih =>
    intro c h
    by_cases hx : p x
    · rw [List.dropWhile_cons_of_pos hx] at h
      exact ih c h
    · rw [List.dropWhile_cons_of_neg hx] at h
      have : c = x := by simpa using h.symm
      subst this
      simpa using hx

theorem getLast?_dropWhile_of_ne_nil (p : Char → Bool) :
    ∀ l : Str, l.dropWhile p ≠ [] → (l.dropWhile p).getLast? = l.getLast? := by
  intro l
  induction l with
  | nil => intro h; rfl
  | cons x rest ih =>
    intro h
    by_cases hx : p x
    · rw [List.dropWhile_cons_of_pos hx] at h ⊢
      rw [ih h]
      have hrest : rest ≠ [] := by
        rintro rfl
        exact h rfl
      obtain ⟨r0, rest2, rfl⟩ : ∃ r0 rest2, rest = r0 :: rest2 := by
        cases rest with
        | nil => exact absurd rfl hrest
        | cons r0 rest2 => exact ⟨r0, rest2, rfl⟩
      rw [List.getLast?_cons_cons]
    · rw [List.dropWhile_cons_of_neg hx]

theorem pyStripSet_head (p : Char → Bool) (s : Str) (c : Char)
    (h : (pyStripSet p s).head? = some c) : p c = false := by
  unfold pyStripSet at h
  rw [List.head?_reverse] at h
  have hne : (s.dropWhile p).reverse.dropWhile p ≠ [] := by
    rintro hnil
    rw [hnil] at h
    cases h
  rw [getLast?_dropWhile_of_ne_nil p _ hne] at h
  rw [List.getLast?_reverse] at h
  exact head?_dropWhile_not p _ c h

theorem pyStripSet_getLast (p : Char → Bool) (s : Str) (c : Char)
    (h : (pyStripSet p s).getLast? = some c) : p c = false := by
  unfold pyStripSet at h
  rw [List.getLast?_reverse] at h
  exact head?_dropWhile_not p _ c h

theorem head?_take {n : Nat} {l : Str} {c : Char}
    (h : (l.take n).head? = some c) : l.head? = some c := by
  cases n with
  | zero => cases h
  | succ n =>
    cases l with
    | nil => cases h
    | cons x rest => simpa using h


/-! ### Identity lemmas used to evaluate the sanitizer on clean inputs -/

theorem replaceChar_id (t : Char) (s : Str) (h : ∀ c ∈ s, c ≠ t) :
    replaceChar t s = s := by
  unfold replaceChar
  induction s with
  | nil => rfl
  | cons x rest ih =>
    simp only [List.map_cons]
    rw [if_neg (h x (List.mem_cons_self x rest)), ih (fun c hc => h c (List.mem_cons_of_mem x hc))]

theorem foldl_replaceChar_id :
    ∀ (ts : List Char) (s : Str), (∀ c ∈ s, c ∉ ts) →
      ts.foldl (fun r t => replaceChar t r) s = s := by
  intro ts
  induction ts with
  | nil => intro s _; rfl
  | cons t ts ih =>
    intro s h
    simp only [List.foldl_cons]
    rw [replaceChar_id t s (fun c hc hct => h c hc (hct ▸ List.mem_cons_self t ts)),
      ih s (fun c hc hcts => h c hc (List.mem_cons_of_mem t hcts))]

theorem containsPair_eq_false_of_not_mem (a : Char) :
    ∀ s : Str, (∀ c ∈ s, c ≠ a) → containsPair a s = false := by
  intro s
  induction s with
  | nil => intro _; rfl
  | cons x rest ih =>
    intro h
    cases rest with
    | nil => rfl
    | cons y rest2 =>
      rw [containsPair]
      refine Bool.eq_false_iff.mpr fun hcp => ?_
      simp only [Bool.or_eq_true, decide_eq_true_eq] at hcp
      rcases hcp with ⟨hxa, -⟩ | hcp2
      · exact h x (List.mem_cons_self _ _) hxa
      · rw [ih (fun c hc => h c (List.mem_cons_of_mem x hc))] at hcp2
        cases hcp2

theorem collapseGo_id (a : Char) (fuel : Nat) (s : Str)
    (h : containsPair a s = false) : collapseGo a fuel s = s := by
  cases fuel with
  | zero => rfl
  | succ fuel =>
    rw [collapseGo, if_neg (by rw [h]; exact Bool.false_ne_true)]

theorem pyStripSet_id (p : Char → Bool) (s : Str)
    (hh : ∀ c, s.head? = some c → p c = false)
    (hl : ∀ c, s.getLast? = some c → p c = false) :
    pyStripSet p s = s := by
  unfold pyStripSet
  have h1 : s.dropWhile p = s := by
    cases hs : s with
    | nil => rfl
    | cons x rest =>
      rw [List.dropWhile_cons_of_neg]
      rw [hh x (by rw [hs]; rfl)]
      exact Bool.false_ne_true
  rw [h1]
  have h2 : s.reverse.dropWhile p = s.reverse := by
    cases hs : s.reverse with
    | nil => rfl
    | cons x rest =>
      rw [List.dropWhile_cons_of_neg]
      have hx : s.getLast? = some x := by
        rw [← List.head?_reverse, hs]
        rfl
      rw [hl x hx]
      exact Bool.false_ne_true
  rw [h2, List.reverse_reverse]

theorem replaceSubGo_id (p : Char) (ps rep : Str) :
    ∀ (s : Str) (n : Nat), (∀ c ∈ s, c ≠ p) → replaceSubGo p ps rep n s = s := by
  intro s
  induction s with
  | nil => intro n _; cases n <;> rfl
  | cons c cs ih =>
    intro n h
    cases n with
    | zero => rfl
    | succ n =>
      rw [replaceSubGo]
      rw [if_neg]
      · rw [ih n (fun d hd => h d (List.mem_cons_of_mem c hd))]
      · rw [matchesAt]
        simp only [Bool.and_eq_true, decide_eq_true_eq, not_and]
        intro hpc
        exact absurd hpc.symm (h c (List.mem_cons_self c cs))

theorem replaceSub_id (p : Char) (ps rep s : Str) (h : ∀ c ∈ s, c ≠ p) :
    replaceSub (p :: ps) rep s = s :=
  replaceSubGo_id p ps rep s s.length h

/-! ### The sanitizer postconditions -/

/-- What `sanitize_filename` guarantees for a positive length bound: no
unsafe characters, no doubled space, no doubled underscore, no leading space
or dot, the length bound — and, when no truncation happens, no trailing
space or dot either. -/
theorem sanitize_filename_spec (name : Str) (maxLength : Nat) :
    (∀ c ∈ sanitize_filename name maxLength, c ∉ unsafeChars) ∧
    containsPair ' ' (sanitize_filename name maxLength) = false ∧
    containsPair '_' (sanitize_filename name maxLength) = false ∧
    (∀ c, (sanitize_filename name maxLength).head? = some c → c ≠ ' ' ∧ c ≠ '.') ∧
    (sanitize_filename name maxLength).length ≤ maxLength ∧
    ((sanitizePreTruncate name).length ≤ maxLength →
      ∀ c, (sanitize_filename name maxLength).getLast? = some c → c ≠ ' ' ∧ c ≠ '.') := by
  have hDmem : ∀ c ∈ sanitizePreTruncate name, c ∉ unsafeChars := by
    intro c hc
    unfold sanitizePreTruncate at hc
    have h1 := mem_of_mem_pyStripSet _ _ c hc
    unfold collapsePairs at h1
    have h2 := mem_of_mem_collapseGo '_' _ _ c h1
    have h3 := mem_of_mem_collapseGo ' ' _ _ c h2
    rcases foldl_replaceChar_mem unsafeChars name c h3 with rfl | ⟨-, hn⟩
    · decide
    · exact hn
  have hDsp : containsPair ' ' (sanitizePreTruncate name) = false := by
    unfold sanitizePreTruncate
    refine Bool.eq_false_iff.mpr fun hcp => ?_
    have h1 := containsPair_pyStripSet _ ' ' _ hcp
    unfold collapsePairs at h1
    have h2 := containsPair_collapseGo '_' ' ' _ _ h1
    have h3 := collapsePairs_no_pair ' ' (replaceUnsafe name)
    unfold collapsePairs at h3
    rw [h2] at h3
    cases h3
  have hDun : containsPair '_' (sanitizePreTruncate name) = false := by
    unfold sanitizePreTruncate
    refine Bool.eq_false_iff.mpr fun hcp => ?_
    have h1 := containsPair_pyStripSet _ '_' _ hcp
    have h3 := collapsePairs_no_pair '_' (collapsePairs ' ' (replaceUnsafe name))
    unfold collapsePairs at h1 h3
    rw [h1] at h3
    cases h3
  have hhead : ∀ c, (sanitizePreTruncate name).head? = some c → c ≠ ' ' ∧ c ≠ '.' := by
    intro c hc
    unfold sanitizePreTruncate at hc
    have := pyStripSet_head _ _ c hc
    simpa using this
  have hlast : ∀ c, (sanitizePreTruncate name).getLast? = some c → c ≠ ' ' ∧ c ≠ '.' := by
    intro c hc
    unfold sanitizePreTruncate at hc
    have := pyStripSet_getLast _ _ c hc
    simpa using this
  unfold sanitize_filename
  by_cases htr : maxLength < (sanitizePreTruncate name).length
  · rw [if_pos htr]
    refine ⟨?_, ?_, ?_, ?_, ?_, ?_⟩
    · intro c hc
      exact hDmem c ((List.take_sublist _ _).mem hc)
    · refine Bool.eq_false_iff.mpr fun hcp => ?_
      rw [containsPair_take ' ' _ _ hcp] at hDsp
      cases hDsp
    · refine Bool.eq_false_iff.mpr fun hcp => ?_
      rw [containsPair_take '_' _ _ hcp] at hDun
      cases hDun
    · intro c hc
      exact hhead c (head?_take hc)
    · simp
    · intro hle
      omega
  · rw [if_neg htr]
    exact ⟨hDmem, hDsp, hDun, hhead, not_lt.mp htr, fun _ => hlast⟩

/-- Counterexample to claim C10 as stated: a 201-character name with a dot
just before position 200 — after sanitization (which strips trailing dots
BEFORE truncating) the result is cut at 200 characters and ends with a dot. -/
theorem C10_counterexample :
    (format_output_filename (List.replicate 199 'a' ++ ['.', 'b']) ['x'] ['y']).getLast?
      = some '.' := by
  have hN : ∀ c ∈ (List.replicate 199 'a' ++ ['.', 'b'] : Str), c = 'a' ∨ c = '.' ∨ c = 'b' := by
    intro c hc
    rcases List.mem_append.mp hc with h | h
    · exact Or.inl (List.eq_of_mem_replicate h)
    · rcases List.mem_cons.mp h with rfl | h2
      · exact Or.inr (Or.inl rfl)
      · rcases List.mem_cons.mp h2 with rfl | h3
        · exact Or.inr (Or.inr rfl)
        · exact absurd h3 (List.not_mem_nil c)
  have hid1 : replaceSub "{project_id}".data ['x'] (List.replicate 199 'a' ++ ['.', 'b'])
      = List.replicate 199 'a' ++ ['.', 'b'] := by
    rw [show ("{project_id}".data : Str) = '{' :: "project_id\x7d".data from rfl]
    refine replaceSub_id _ _ _ _ fun c hc => ?_
    rcases hN c hc with rfl | rfl | rfl <;> decide
  have hid2 : replaceSub "{project_name}".data ['y'] (List.replicate 199 'a' ++ ['.', 'b'])
      = List.replicate 199 'a' ++ ['.', 'b'] := by
    rw [show ("{project_name}".data : Str) = '{' :: "project_name\x7d".data from rfl]
    refine replaceSub_id _ _ _ _ fun c hc => ?_
    rcases hN c hc with rfl | rfl | rfl <;> decide
  have hid3 : replaceUnsafe (List.replicate 199 'a' ++ ['.', 'b'])
      = List.replicate 199 'a' ++ ['.', 'b'] := by
    refine foldl_replaceChar_id _ _ fun c hc => ?_
    rcases hN c hc with rfl | rfl | rfl <;> decide
  have hpairs : ∀ a : Char, a = ' ' ∨ a = '_' →
      containsPair a (List.replicate 199 'a' ++ ['.', 'b']) = false := by
    intro a ha
    refine containsPair_eq_false_of_not_mem a _ fun c hc => ?_
    rcases hN c hc with rfl | rfl | rfl <;> rcases ha with rfl | rfl <;> decide
  have hpre : sanitizePreTruncate (List.replicate 199 'a' ++ ['.', 'b'])
      = List.replicate 199 'a' ++ ['.', 'b'] := by
    unfold sanitizePreTruncate collapsePairs
    rw [hid3, collapseGo_id ' ' _ _ (hpairs ' ' (Or.inl rfl)),
      collapseGo_id '_' _ _ (hpairs '_' (Or.inr rfl))]
    refine pyStripSet_id _ _ ?_ ?_
    · intro c hc
      rw [show (199:ℕ) = 198 + 1 from rfl, List.replicate_succ, List.cons_append,
        List.head?_cons] at hc
      have hca : c = 'a' := (Option.some.inj hc).symm
      subst hca
      decide
    · intro c hc
      rw [List.getLast?_append_of_ne_nil (List.replicate 199 'a')
        (show (['.', 'b'] : Str) ≠ [] from by simp)] at hc
      have hcb : c = 'b' := by
        rw [show (['.', 'b'] : Str).getLast? = some 'b' from rfl] at hc
        exact (Option.some.inj hc).symm
      subst hcb
      decide
  have hlen : (List.replicate 199 'a' ++ ['.', 'b'] : Str).length = 201 := by
    rw [List.length_append, List.length_replicate]
    rfl
  unfold format_output_filename
  rw [hid1, hid2]
  simp only [sanitize_filename]
  rw [hpre, hlen]
  rw [if_pos (by norm_num)]
  have htake : (List.replicate 199 'a' ++ ['.', 'b'] : Str).take 200
      = List.replicate 199 'a' ++ ['.'] := by
    rw [List.take_append_eq_append_take]
    rw [List.take_of_length_le (le_of_eq_of_le (List.length_replicate 199 'a') (by omega)),
      List.length_replicate]
    rfl
  rw [htake, List.getLast?_append_of_ne_nil (List.replicate 199 'a')
    (show (['.'] : Str) ≠ [] from by simp)]
  rfl

/-- Claim C10, amended: the filename produced by `format_output_filename`
(default maximum length 200) contains no filesystem-unsafe character, no two
consecutive spaces, no two consecutive underscores, does not start with a
space or a dot, and has length at most 200; it also does not END with a
space or a dot provided the sanitized name needed no truncation — the code
strips before truncating, so truncation can re-expose a trailing space or
dot (see the counterexample). -/
theorem C10_filename_sanitization (pat pid pname : Str) :
    (∀ c ∈ format_output_filename pat pid pname, c ∉ unsafeChars) ∧
    containsPair ' ' (format_output_filename pat pid pname) = false ∧
    containsPair '_' (format_output_filename pat pid pname) = false ∧
    (∀ c, (format_output_filename pat pid pname).head? = some c → c ≠ ' ' ∧ c ≠ '.') ∧
    (format_output_filename pat pid pname).length ≤ 200 ∧
    ((sanitizePreTruncate (replaceSub "{project_name}".data pname
        (replaceSub "{project_id}".data pid pat))).length ≤ 200 →
      ∀ c, (format_output_filename pat pid pname).getLast? = some c → c ≠ ' ' ∧ c ≠ '.') := by
  unfold format_output_filename
  exact sanitize_filename_spec _ 200

/-- Witness for C10 at a concrete pattern: `"ab"` with no placeholders. -/
theorem C10_filename_sanitization_witness :
    (format_output_filename "ab".data "x".data "y".data).length ≤ 200 ∧
    (∀ c, (format_output_filename "ab".data "x".data "y".data).getLast? = some c →
      c ≠ ' ' ∧ c ≠ '.') := by
  have h := C10_filename_sanitization "ab".data "x".data "y".data
  refine ⟨h.2.2.2.2.1, h.2.2.2.2.2 ?_⟩
  norm_num +decide [sanitizePreTruncate, replaceSub, replaceSubGo, matchesAt, replaceUnsafe,
    unsafeChars, replaceChar, collapsePairs, collapseGo, containsPair, replacePairOnce,
    pyStripSet]


/-! ### Token-level infrastructure for the wrap loop -/

theorem splitSp_ne_nil : ∀ s : Str, splitSp s ≠ [] := by
  intro s
  cases s with
  | nil => simp [splitSp]
  | cons c cs =>
    rw [splitSp]
    split_ifs
    · simp
    · rcases hsp : splitSp cs with _ | ⟨t, ts⟩ <;> simp

theorem tokens_nl (cs : Str) : tokens ('\n' :: cs) = [] :: ['\n'] :: tokens cs := rfl

theorem tokens_sp (cs : Str) : tokens (' ' :: cs) = [] :: tokens cs := rfl

theorem tokens_ch (c : Char) (cs : Str) (h1 : ¬ c = '\n') (h2 : ¬ c = ' ') :
    ∃ t ts, tokens cs = t :: ts ∧ tokens (c :: cs) = (c :: t) :: ts := by
  have hr : replaceNl (c :: cs) = c :: replaceNl cs := by
    rw [replaceNl, if_neg h1]
  rcases hsp : splitSp (replaceNl cs) with _ | ⟨t, ts⟩
  · exact absurd hsp (splitSp_ne_nil _)
  · refine ⟨t, ts, hsp, ?_⟩
    show splitSp (replaceNl (c :: cs)) = (c :: t) :: ts
    rw [hr, splitSp, if_neg h2, hsp]

theorem replaceNl_append : ∀ a b : Str, replaceNl (a ++ b) = replaceNl a ++ replaceNl b := by
  intro a b
  induction a with
  | nil => rfl
  | cons x a ih =>
    show replaceNl (x :: (a ++ b)) = replaceNl (x :: a) ++ replaceNl b
    rw [replaceNl, replaceNl]
    split_ifs <;> simp [ih]

theorem replaceNl_id : ∀ s : Str, (∀ c ∈ s, ¬ c = '\n') → replaceNl s = s := by
  intro s
  induction s with
  | nil => intro _; rfl
  | cons x rest ih =>
    intro h
    rw [replaceNl, if_neg (h x (List.mem_cons_self _ _))]
    rw [ih (fun c hc => h c (List.mem_cons_of_mem x hc))]

theorem splitSp_cons_char (x : Char) (cs : Str) (hx : ¬ x = ' ') (t : Str) (ts : List Str)
    (h : splitSp cs = t :: ts) : splitSp (x :: cs) = (x :: t) :: ts := by
  rw [splitSp, if_neg hx, h]

theorem splitSp_cons_space (cs : Str) : splitSp (' ' :: cs) = [] :: splitSp cs := by
  rw [splitSp, if_pos rfl]

theorem splitSp_append_space : ∀ a b : Str, splitSp (a ++ ' ' :: b) = splitSp a ++ splitSp b := by
  intro a b
  induction a with
  | nil => rfl
  | cons x a ih =>
    by_cases hx : x = ' '
    · subst hx
      show splitSp (' ' :: (a ++ ' ' :: b)) = splitSp (' ' :: a) ++ splitSp b
      rw [splitSp_cons_space, splitSp_cons_space, ih]
      rfl
    · rcases hsp : splitSp a with _ | ⟨t, ts⟩
      · exact absurd hsp (splitSp_ne_nil _)
      · have h2 : splitSp (a ++ ' ' :: b) = t :: (ts ++ splitSp b) := by
          rw [ih, hsp]
          rfl
        show splitSp (x :: (a ++ ' ' :: b)) = splitSp (x :: a) ++ splitSp b
        rw [splitSp_cons_char x _ hx _ _ h2, splitSp_cons_char x _ hx _ _ hsp]
        rfl

theorem splitSp_singleton : ∀ w : Str, w ≠ [] → (∀ c ∈ w, ¬ c = ' ') → splitSp w = [w] := by
  intro w
  induction w with
  | nil => intro h _; exact absurd rfl h
  | cons x rest ih =>
    intro _ h
    rw [splitSp, if_neg (h x (List.mem_cons_self _ _))]
    cases rest with
    | nil => rfl
    | cons y rest2 =>
      rw [ih (by simp) (fun c hc => h c (List.mem_cons_of_mem x hc))]

theorem mem_splitSp_chars : ∀ (s : Str) (w : Str), w ∈ splitSp s → ∀ c ∈ w, c ∈ s ∧ ¬ c = ' ' := by
  intro s
  induction s with
  | nil =>
    intro w hw c hc
    simp [splitSp] at hw
    rw [hw] at hc
    exact absurd hc (List.not_mem_nil c)
  | cons x rest ih =>
    intro w hw c hc
    rw [splitSp] at hw
    split_ifs at hw with hx
    · rcases List.mem_cons.mp hw with rfl | hw2
      · exact absurd hc (List.not_mem_nil c)
      · obtain ⟨h1, h2⟩ := ih w hw2 c hc
        exact ⟨List.mem_cons_of_mem x h1, h2⟩
    · rcases hsp : splitSp rest with _ | ⟨t, ts⟩
      · exact absurd hsp (splitSp_ne_nil _)
      · rw [hsp] at hw
        rcases List.mem_cons.mp hw with rfl | hw2
        · rcases List.mem_cons.mp hc with rfl | hc2
          · exact ⟨List.mem_cons_self _ _, hx⟩
          · obtain ⟨h1, h2⟩ := ih t (hsp ▸ List.mem_cons_self _ _) c hc2
            exact ⟨List.mem_cons_of_mem x h1, h2⟩
        · obtain ⟨h1, h2⟩ := ih w (hsp ▸ List.mem_cons_of_mem t hw2) c hc
          exact ⟨List.mem_cons_of_mem x h1, h2⟩

/-- Every token of a clean text is either the newline token or entirely
whitespace-free; and the first token is never the newline token. -/
theorem tokens_clean_shape : ∀ t : Str, cleanText t →
    (∀ w ∈ tokens t, w = ['\n'] ∨ (∀ c ∈ w, isPySpace c = false)) ∧
    (∀ w0 ts, tokens t = w0 :: ts → ∀ c ∈ w0, isPySpace c = false) := by
  intro t
  induction t with
  | nil =>
    intro _
    constructor
    · intro w hw
      right
      intro c hc
      simp [tokens, replaceNl, splitSp] at hw
      rw [hw] at hc
      exact absurd hc (List.not_mem_nil c)
    · intro w0 ts heq c hc
      simp only [tokens, replaceNl, splitSp] at heq
      obtain ⟨h1, -⟩ := List.cons.injEq _ _ _ _ ▸ heq
      have : w0 = [] := by
        have := List.cons.inj heq
        exact this.1.symm
      rw [this] at hc
      exact absurd hc (List.not_mem_nil c)
  | cons x rest ih =>
    intro hclean
    have hcr : cleanText rest := fun c hc hw => hclean c (List.mem_cons_of_mem x hc) hw
    obtain ⟨ih1, ih2⟩ := ih hcr
    by_cases hx1 : x = '\n'
    · subst hx1
      rw [tokens_nl]
      constructor
      · intro w hw
        rcases List.mem_cons.mp hw with rfl | hw2
        · right; intro c hc; exact absurd hc (List.not_mem_nil c)
        · rcases List.mem_cons.mp hw2 with rfl | hw3
          · left; rfl
          · exact ih1 w hw3
      · rintro w0 ts heq c hc
        have : w0 = [] := (List.cons.inj heq).1.symm
        rw [this] at hc
        exact absurd hc (List.not_mem_nil c)
    · by_cases hx2 : x = ' '
      · subst hx2
        rw [tokens_sp]
        constructor
        · intro w hw
          rcases List.mem_cons.mp hw with rfl | hw2
          · right; intro c hc; exact absurd hc (List.not_mem_nil c)
          · exact ih1 w hw2
        · rintro w0 ts heq c hc
          have : w0 = [] := (List.cons.inj heq).1.symm
          rw [this] at hc
          exact absurd hc (List.not_mem_nil c)
      · have hxw : isPySpace x = false := by
          by_cases hws : isPySpace x = true
          · rcases hclean x (List.mem_cons_self _ _) hws with h | h
            · exact absurd h hx2
            · exact absurd h hx1
          · exact Bool.eq_false_iff.mpr hws
        obtain ⟨t0, ts0, hts, heq⟩ := tokens_ch x rest hx1 hx2
        rw [heq]
        have ht0 : ∀ c ∈ t0, isPySpace c = false := ih2 t0 ts0 hts
        constructor
        · intro w hw
          rcases List.mem_cons.mp hw with rfl | hw2
          · right
            intro c hc
            rcases List.mem_cons.mp hc with rfl | hc2
            · exact hxw
            · exact ht0 c hc2
          · exact ih1 w (hts ▸ List.mem_cons_of_mem t0 hw2)
        · rintro w0 ts heq2 c hc
          have hw0 : w0 = x :: t0 := (List.cons.inj heq2).1.symm
          rw [hw0] at hc
          rcases List.mem_cons.mp hc with rfl | hc2
          · exact hxw
          · exact ht0 c hc2


/-! ### Strip-freeness of clean wrap states -/

theorem noWsEnds_of_all (s : Str) (h : ∀ c ∈ s, isPySpace c = false) :
    noWsEnds s = true := by
  unfold noWsEnds
  rw [Bool.and_eq_true]
  constructor
  · cases hs : s.head? with
    | none => rfl
    | some c =>
      have hc : c ∈ s := by
        cases s with
        | nil => cases hs
        | cons x rest =>
          have : c = x := by simpa using hs.symm
          rw [this]
          exact List.mem_cons_self _ _
      simp [Option.all, h c hc]
  · cases hs : s.getLast? with
    | none => rfl
    | some c =>
      have hc : c ∈ s := by
        have h2 : c ∈ s.reverse.head? := by
          rw [List.head?_reverse]
          exact hs ▸ rfl
        cases hrev : s.reverse with
        | nil =>
          rw [hrev] at h2
          cases h2
        | cons x rest =>
          rw [hrev] at h2
          have hxc : x = c := by simpa using h2
          subst hxc
          rw [← List.mem_reverse, hrev]
          exact List.mem_cons_self _ _
      simp [Option.all, h c hc]

theorem noWsEnds_conds (s : Str)
    (hh : ∀ c, s.head? = some c → isPySpace c = false)
    (hl : ∀ c, s.getLast? = some c → isPySpace c = false) :
    noWsEnds s = true := by
  unfold noWsEnds
  rw [Bool.and_eq_true]
  constructor
  · cases hs : s.head? with
    | none => rfl
    | some c => simp [Option.all, hh c hs]
  · cases hs : s.getLast? with
    | none => rfl
    | some c => simp [Option.all, hl c hs]

theorem noWsEnds_head (s : Str) (h : noWsEnds s = true) (c : Char)
    (hc : s.head? = some c) : isPySpace c = false := by
  unfold noWsEnds at h
  rw [Bool.and_eq_true] at h
  rw [hc] at h
  have := h.1
  simpa [Option.all] using this

theorem noWsEnds_getLast (s : Str) (h : noWsEnds s = true) (c : Char)
    (hc : s.getLast? = some c) : isPySpace c = false := by
  unfold noWsEnds at h
  rw [Bool.and_eq_true] at h
  rw [hc] at h
  have := h.2
  simpa [Option.all] using this

theorem pyStrip_eq_stripSet (s : Str) : pyStrip s = pyStripSet isPySpace s := rfl

theorem pyStrip_id_of_noWsEnds (s : Str) (h : noWsEnds s = true) : pyStrip s = s := by
  rw [pyStrip_eq_stripSet]
  exact pyStripSet_id isPySpace s (noWsEnds_head s h) (noWsEnds_getLast s h)

theorem noWsEnds_pyStrip (s : Str) : noWsEnds (pyStrip s) = true := by
  rw [pyStrip_eq_stripSet]
  exact noWsEnds_conds _ (pyStripSet_head isPySpace s) (pyStripSet_getLast isPySpace s)

theorem noWsEnds_append_word (cur w : Str) (hcne : cur ≠ [])
    (hc : noWsEnds cur = true) (hw : ∀ c ∈ w, isPySpace c = false) (hwne : w ≠ []) :
    noWsEnds (cur ++ ' ' :: w) = true := by
  refine noWsEnds_conds _ ?_ ?_
  · intro c hcc
    rw [List.head?_append_of_ne_nil _ hcne] at hcc
    exact noWsEnds_head cur hc c hcc
  · intro c hcc
    rw [List.getLast?_append_of_ne_nil cur (by simp)] at hcc
    rw [show (' ' :: w : Str) = [' '] ++ w from rfl] at hcc
    rw [List.getLast?_append_of_ne_nil [' '] hwne] at hcc
    have hcw : c ∈ w := by
      have := List.getLast?_eq_getLast_of_ne_nil hwne
      rw [this] at hcc
      have hceq : c = w.getLast hwne := by simpa using hcc.symm
      rw [hceq]
      exact List.getLast_mem hwne
    exact hw c hcw

/-- Shape preservation: the wrap loop keeps the current line free of
whitespace at both ends, for clean tokens. -/
theorem wrapStep_noWsEnds (m : Str → ℚ) (maxW : ℚ) (st : List Str × Str) (w : Str)
    (hw : w = ['\n'] ∨ (∀ c ∈ w, isPySpace c = false))
    (h : noWsEnds st.2 = true) :
    noWsEnds (wrapStep m maxW st w).2 = true := by
  simp only [wrapStep]
  split_ifs with h1 h2 h3 h4 h5 h6 h7 h8
  · rfl
  · rfl
  · exact h
  · exact noWsEnds_pyStrip _
  · rfl
  · rcases hw with rfl | hw
    · exact absurd rfl h1
    · exact noWsEnds_of_all w hw
  · rcases hw with rfl | hw
    · exact absurd rfl h1
    · exact noWsEnds_of_all w hw
  · rfl
  · rcases hw with rfl | hw
    · exact absurd rfl h1
    · exact noWsEnds_of_all w hw

theorem wrapFold_noWsEnds (m : Str → ℚ) (maxW : ℚ) :
    ∀ (ws : List Str) (st : List Str × Str),
      (∀ w ∈ ws, w = ['\n'] ∨ (∀ c ∈ w, isPySpace c = false)) →
      noWsEnds st.2 = true →
      noWsEnds ((ws.foldl (wrapStep m maxW) st)).2 = true := by
  intro ws
  induction ws with
  | nil => intro st _ h; exact h
  | cons w ws ih =>
    intro st hws h
    exact ih _ (fun v hv => hws v (List.mem_cons_of_mem w hv))
      (wrapStep_noWsEnds m maxW st w (hws w (List.mem_cons_self _ _)) h)

/-! ### The wrap fold only appends to the line list -/

theorem wrapStep_shift (m : Str → ℚ) (maxW : ℚ) (L : List Str) (st : List Str × Str)
    (w : Str) :
    wrapStep m maxW (L ++ st.1, st.2) w
      = (L ++ (wrapStep m maxW st w).1, (wrapStep m maxW st w).2) := by
  unfold wrapStep
  split_ifs <;>
    simp only [apply_ite (fun p : List Str × Str => ((L ++ p.1 : List Str), p.2))] <;>
    simp [List.append_assoc]

theorem wrapFold_shift (m : Str → ℚ) (maxW : ℚ) :
    ∀ (ws : List Str) (L : List Str) (st : List Str × Str),
      ws.foldl (wrapStep m maxW) (L ++ st.1, st.2)
        = (L ++ (ws.foldl (wrapStep m maxW) st).1, (ws.foldl (wrapStep m maxW) st).2) := by
  intro ws
  induction ws with
  | nil => intro L st; rfl
  | cons w ws ih =>
    intro L st
    show ws.foldl (wrapStep m maxW) (wrapStep m maxW (L ++ st.1, st.2) w) = _
    rw [wrapStep_shift]
    exact ih L (wrapStep m maxW st w)

theorem finishWrap_shift (L : List Str) (st : List Str × Str) :
    finishWrap (L ++ st.1, st.2) = L ++ finishWrap st := by
  unfold finishWrap
  split_ifs <;> simp [List.append_assoc]

theorem wrapM_eq_foldl (m : Str → ℚ) (maxW : ℚ) (t : Str) :
    wrapM m maxW t = finishWrap ((tokens t).foldl (wrapStep m maxW) ([], [])) := by
  unfold wrapM
  split_ifs with h
  · subst h
    rfl
  · rfl

/-- On a fully clean current line, flushing at a newline token is exactly
`finishWrap`. -/
theorem wrapStep_nl (m : Str → ℚ) (maxW : ℚ) (st : List Str × Str)
    (h : noWsEnds st.2 = true) :
    wrapStep m maxW st ['\n'] = (finishWrap st, []) := by
  unfold wrapStep finishWrap
  rw [if_pos rfl]
  split_ifs with h1
  · rw [pyStrip_id_of_noWsEnds _ h]
  · rfl


/-! ### Claim C5: the greedy wrapping rule -/

/-- On a clean state and a clean word, one wrap step is exactly the greedy
rule: join when the joined line fits, otherwise close the line and start a
fresh one with the word when the word alone fits, otherwise character-break
the word. -/
theorem wrapStep_clean (m : Str → ℚ) (maxW : ℚ) (L : List Str) (cur w : Str)
    (hcur : noWsEnds cur = true) (hcne : cur ≠ [])
    (hw : ∀ c ∈ w, isPySpace c = false) (hwne : w ≠ []) :
    wrapStep m maxW (L, cur) w =
      if m (cur ++ ' ' :: w) ≤ maxW then (L, cur ++ ' ' :: w)
      else if m w ≤ maxW then (L ++ [cur], w)
      else ((L ++ [cur]) ++ breakLongWord m maxW w, []) := by
  have hnl : w ≠ ['\n'] := by
    rintro rfl
    have := hw '\n' (List.mem_cons_self _ _)
    simp [isPySpace] at this
  have hstrip : pyStrip (cur ++ ' ' :: w) = cur ++ ' ' :: w :=
    pyStrip_id_of_noWsEnds _ (noWsEnds_append_word cur w hcne hcur hw hwne)
  simp only [wrapStep]
  rw [if_neg hnl, if_neg hwne, if_pos hcne, hstrip, if_pos hcne]
  by_cases h1 : m (cur ++ ' ' :: w) ≤ maxW
  · rw [if_pos h1, if_pos h1]
  · rw [if_neg h1, if_neg h1]
    by_cases h2 : m w ≤ maxW
    · rw [if_neg (not_lt.mpr h2), if_pos h2]
    · rw [if_pos (not_le.mp h2), if_neg h2]

/-- A literal newline is a hard break: wrapping a text with a newline in the
middle wraps the two halves independently and concatenates the line lists
(for clean texts, where `strip()` cannot alter the built lines). -/
theorem wrapM_newline_split (m : Str → ℚ) (maxW : ℚ) (a b : Str)
    (ha : cleanText a) (hb : cleanText b) :
    wrapM m maxW (a ++ '\n' :: b) = wrapM m maxW a ++ wrapM m maxW b := by
  have htok : tokens (a ++ '\n' :: b) = tokens a ++ ['\n'] :: tokens b := by
    unfold tokens
    rw [replaceNl_append]
    rw [show replaceNl ('\n' :: b) = ' ' :: '\n' :: ' ' :: replaceNl b from by
      rw [replaceNl, if_pos rfl]]
    rw [splitSp_append_space]
    rfl
  have hne : a ++ '\n' :: b ≠ [] := by simp
  have hshape := (tokens_clean_shape a ha).1
  have hA : noWsEnds (((tokens a).foldl (wrapStep m maxW) ([], [])).2) = true :=
    wrapFold_noWsEnds m maxW (tokens a) ([], []) hshape rfl
  unfold wrapM
  rw [if_neg hne, htok, List.foldl_append, List.foldl_cons, wrapStep_nl m maxW _ hA]
  have hsplit : (tokens b).foldl (wrapStep m maxW)
      (finishWrap ((tokens a).foldl (wrapStep m maxW) ([], [])), []) =
      (finishWrap ((tokens a).foldl (wrapStep m maxW) ([], [])) ++
        ((tokens b).foldl (wrapStep m maxW) ([], [])).1,
       ((tokens b).foldl (wrapStep m maxW) ([], [])).2) := by
    have h := wrapFold_shift m maxW (tokens b)
      (finishWrap ((tokens a).foldl (wrapStep m maxW) ([], []))) ([], [])
    simpa using h
  rw [hsplit, finishWrap_shift]
  congr 1
  · split_ifs with h
    · subst h
      rfl
    · rfl
  · split_ifs with h
    · subst h
      rfl
    · rfl

/-- Counterexample to claim C5 as stated: with every character one unit wide
and `max_width = 2`, wrapping `"x yyyy"` does NOT close the line and start a
new line holding the word `"yyyy"` (which would give `["x", "yyyy"]`): the
overwide word is broken at character level into `["x", "yy", "yy"]`. -/
theorem C5_counterexample :
    wrap_text cm ("x yyyy".data) 2 1 = [['x'], ['y', 'y'], ['y', 'y']] ∧
    [['x'], ['y', 'y'], ['y', 'y']] ≠ ([['x'], ['y', 'y', 'y', 'y']] : List Str) := by
  constructor
  · norm_num +decide [wrap_text, wrapM, tokens, splitSp, replaceNl, finishWrap, wrapStep,
      blwStep, breakLongWord, cm, charW, pyStrip, isPySpace]
  · decide

/-- Claim C5, amended: on a non-empty current line and a word (both free of
stray whitespace, so that the `strip()` in the code is invisible), the word
is appended exactly when the measured width of current-line + space + word
is within `max_width`; otherwise the current line is closed and the word
starts the new line when it fits alone, and is broken at character level
when it does not.  A literal newline always forces a hard break: wrapping
around a newline is wrapping the halves separately.  Concretely,
`"Alpha Beta Gamma"` at width 100 and size 10, with every glyph 10 wide,
wraps to `["Alpha Beta", "Gamma"]`. -/
theorem C5_greedy_wrapping (sw : Str → ℚ → ℚ) (fontSize maxW : ℚ) (L : List Str)
    (cur w a b : Str)
    (hcur : noWsEnds cur = true) (hcne : cur ≠ [])
    (hw : ∀ c ∈ w, isPySpace c = false) (hwne : w ≠ [])
    (ha : cleanText a) (hb : cleanText b) :
    (wrapStep (fun s => sw s fontSize) maxW (L, cur) w =
      if sw (cur ++ ' ' :: w) fontSize ≤ maxW then (L, cur ++ ' ' :: w)
      else if sw w fontSize ≤ maxW then (L ++ [cur], w)
      else ((L ++ [cur]) ++ breakLongWord (fun s => sw s fontSize) maxW w, [])) ∧
    wrap_text sw (a ++ '\n' :: b) maxW fontSize
      = wrap_text sw a maxW fontSize ++ wrap_text sw b maxW fontSize ∧
    wrap_text cm ("Alpha Beta Gamma".data) 100 10 = ["Alpha Beta".data, "Gamma".data] := by
  refine ⟨wrapStep_clean _ maxW L cur w hcur hcne hw hwne,
    wrapM_newline_split _ maxW a b ha hb, ?_⟩
  norm_num +decide [wrap_text, wrapM, tokens, splitSp, replaceNl, finishWrap, wrapStep,
    blwStep, breakLongWord, cm, charW, pyStrip, isPySpace, String.data]

/-- Witness for C5 at a concrete instance: the newline in `"u\nv"` is a hard
break. -/
theorem C5_greedy_wrapping_witness :
    wrap_text cm (['u'] ++ '\n' :: ['v']) 10 1
      = wrap_text cm ['u'] 10 1 ++ wrap_text cm ['v'] 10 1 :=
  (C5_greedy_wrapping cm 1 10 [] ['q'] ['r'] ['u'] ['v'] (by decide) (by decide)
    (by decide) (by decide) (by unfold cleanText; decide) (by unfold cleanText; decide)).2.1

/-! ### Claim C7: wrap round-trip -/

/-- An empty token leaves the wrap state untouched. -/
theorem wrapStep_empty (m : Str → ℚ) (maxW : ℚ) (st : List Str × Str) :
    wrapStep m maxW st [] = st := by
  unfold wrapStep
  rw [if_neg (by decide), if_pos rfl]

/-- Empty tokens can be filtered out of the wrap fold. -/
theorem wrapFold_filter (m : Str → ℚ) (maxW : ℚ) :
    ∀ (ws : List Str) (st : List Str × Str),
      ws.foldl (wrapStep m maxW) st
        = (ws.filter (fun w => ! w.isEmpty)).foldl (wrapStep m maxW) st := by
  intro ws
  induction ws with
  | nil => intro st; rfl
  | cons w ws ih =>
    intro st
    by_cases hw : w = []
    · subst hw
      rw [List.foldl_cons, wrapStep_empty, List.filter_cons_of_neg (by simp)]
      exact ih st
    · rw [List.foldl_cons, List.filter_cons_of_pos (by simpa using hw), List.foldl_cons]
      exact ih (wrapStep m maxW st w)

/-- For a strictly clean text the newline pre-pass is the identity, and every
token is entirely whitespace-free. -/
theorem tokens_strictClean (t : Str) (h : strictCleanText t) :
    tokens t = splitSp t ∧ ∀ w ∈ splitSp t, ∀ c ∈ w, isPySpace c = false := by
  constructor
  · unfold tokens
    rw [replaceNl_id t]
    intro c hc hnl
    have hsp : isPySpace c = true := by subst hnl; decide
    have := h c hc hsp
    subst hnl
    exact absurd this (by decide)
  · intro w hw c hc
    obtain ⟨hcs, hcsp⟩ := mem_splitSp_chars t w hw c hc
    by_cases hws : isPySpace c = true
    · exact absurd (h c hcs hws) hcsp
    · exact Bool.eq_false_iff.mpr hws

/-- Joining with single spaces, two-element unfolding. -/
theorem intercalate_sp_cons2 (x y : Str) (zs : List Str) :
    List.intercalate [' '] (x :: y :: zs) = x ++ ' ' :: List.intercalate [' '] (y :: zs) := by
  simp [List.intercalate]

/-- Splitting a space-join recovers the split pieces of each line. -/
theorem splitSp_intercalate : ∀ ls : List Str, ls ≠ [] →
    splitSp (List.intercalate [' '] ls) = (ls.map splitSp).flatten := by
  intro ls
  induction ls with
  | nil => intro h; exact absurd rfl h
  | cons l rest ih =>
    intro _
    cases rest with
    | nil => simp [List.intercalate]
    | cons l2 rest2 =>
      rw [intercalate_sp_cons2, splitSp_append_space, ih (by simp)]
      simp

/-- Every character of a space-join is a space or a character of a line. -/
theorem mem_intercalate_sp : ∀ (ls : List Str) (c : Char),
    c ∈ List.intercalate [' '] ls → c = ' ' ∨ ∃ l ∈ ls, c ∈ l := by
  intro ls
  induction ls with
  | nil => intro c hc; simp [List.intercalate] at hc
  | cons l rest ih =>
    intro c hc
    cases rest with
    | nil =>
      simp [List.intercalate] at hc
      exact Or.inr ⟨l, List.mem_cons_self _ _, hc⟩
    | cons l2 rest2 =>
      rw [intercalate_sp_cons2] at hc
      rcases List.mem_append.mp hc with h1 | h2
      · exact Or.inr ⟨l, List.mem_cons_self _ _, h1⟩
      · rcases List.mem_cons.mp h2 with rfl | h3
        · exact Or.inl rfl
        · rcases ih c h3 with h | ⟨l3, hl3, hcl3⟩
          · exact Or.inl h
          · exact Or.inr ⟨l3, List.mem_cons_of_mem _ hl3, hcl3⟩

/-- One wrap step on a clean state and a fitting whitespace-free word
commits exactly that word, preserving cleanliness. -/
theorem wrapStep_words (m : Str → ℚ) (maxW : ℚ) (st : List Str × Str) (w : Str)
    (hwne : w ≠ []) (hw : ∀ c ∈ w, isPySpace c = false) (hfit : m w ≤ maxW)
    (hst : stateClean st) :
    stateClean (wrapStep m maxW st w) ∧
    stateWords (wrapStep m maxW st w) = stateWords st ++ [w] := by
  obtain ⟨h1, h2, h3, h4⟩ := hst
  obtain ⟨L, cur⟩ := st
  have hwsp : ∀ c ∈ w, ¬ c = ' ' := by
    intro c hc he
    have := hw c hc
    rw [he] at this
    exact absurd this (by decide)
  have hsplitw : splitSp w = [w] := splitSp_singleton w hwne hwsp
  by_cases hcne : cur = []
  · subst hcne
    have hnl : w ≠ ['\n'] := by
      rintro rfl
      have := hw '\n' (List.mem_cons_self _ _)
      simp [isPySpace] at this
    have hstep : wrapStep m maxW (L, []) w = (L, w) := by
      simp [wrapStep, hnl, hwne, hfit]
    rw [hstep]
    refine ⟨⟨h1, h2, noWsEnds_of_all w hw, fun c hc => Or.inl (hw c hc)⟩, ?_⟩
    unfold stateWords
    rw [if_neg hwne, hsplitw]
    simp
  · rw [wrapStep_clean m maxW L cur w h3 hcne hw hwne]
    by_cases hj : m (cur ++ ' ' :: w) ≤ maxW
    · rw [if_pos hj]
      refine ⟨⟨h1, h2, noWsEnds_append_word cur w hcne h3 hw hwne, ?_⟩, ?_⟩
      · intro c hc
        rcases List.mem_append.mp hc with hcc | hcw
        · exact h4 c hcc
        · rcases List.mem_cons.mp hcw with rfl | hcw2
          · exact Or.inr rfl
          · exact Or.inl (hw c hcw2)
      · unfold stateWords
        rw [if_neg hcne, if_neg (by simp), splitSp_append_space, hsplitw,
          List.append_assoc]
    · rw [if_neg hj, if_pos hfit]
      refine ⟨⟨?_, ?_, noWsEnds_of_all w hw, fun c hc => Or.inl (hw c hc)⟩, ?_⟩
      · intro hmem
        rcases List.mem_append.mp hmem with hL | hc
        · exact h1 hL
        · exact hcne (List.mem_singleton.mp hc).symm
      · intro l hl
        rcases List.mem_append.mp hl with hL | hc
        · exact h2 l hL
        · rw [List.mem_singleton.mp hc]
          exact h4
      · unfold stateWords
        rw [if_neg hcne, if_neg hwne, hsplitw, List.map_append, List.flatten_append]
        simp

/-- Folding the wrap step over fitting whitespace-free words commits exactly
those words, in order, preserving cleanliness. -/
theorem wrapFold_words (m : Str → ℚ) (maxW : ℚ) :
    ∀ (ws : List Str) (st : List Str × Str),
      (∀ w ∈ ws, w ≠ [] ∧ (∀ c ∈ w, isPySpace c = false) ∧ m w ≤ maxW) →
      stateClean st →
      stateClean (ws.foldl (wrapStep m maxW) st) ∧
      stateWords (ws.foldl (wrapStep m maxW) st) = stateWords st ++ ws := by
  intro ws
  induction ws with
  | nil => intro st _ hst; exact ⟨hst, by simp⟩
  | cons w ws ih =>
    intro st hws hst
    obtain ⟨hwne, hwcl, hwfit⟩ := hws w (List.mem_cons_self _ _)
    obtain ⟨hc1, he1⟩ := wrapStep_words m maxW st w hwne hwcl hwfit hst
    obtain ⟨hc2, he2⟩ := ih (wrapStep m maxW st w)
      (fun v hv => hws v (List.mem_cons_of_mem w hv)) hc1
    refine ⟨hc2, ?_⟩
    rw [List.foldl_cons] at *
    rw [he2, he1, List.append_assoc]
    rfl

/-- The split pieces of the finished lines are exactly the committed words. -/
theorem finishWrap_words (st : List Str × Str) :
    ((finishWrap st).map splitSp).flatten = stateWords st := by
  unfold finishWrap stateWords
  by_cases h : st.2 = []
  · rw [if_neg (by simpa using h), if_pos h]
    simp
  · rw [if_pos (by simpa using h), if_neg h]
    simp

/-- The finished lines of a clean state are non-empty and newline-free. -/
theorem finishWrap_clean (st : List Str × Str) (hst : stateClean st) :
    [] ∉ finishWrap st ∧
    ∀ l ∈ finishWrap st, ∀ c ∈ l, isPySpace c = false ∨ c = ' ' := by
  obtain ⟨h1, h2, _, h4⟩ := hst
  unfold finishWrap
  by_cases h : st.2 = []
  · rw [if_neg (by simpa using h)]
    exact ⟨h1, h2⟩
  · rw [if_pos (by simpa using h)]
    constructor
    · intro hmem
      rcases List.mem_append.mp hmem with hL | hc
      · exact h1 hL
      · exact h (List.mem_singleton.mp hc).symm
    · intro l hl
      rcases List.mem_append.mp hl with hL | hc
      · exact h2 l hL
      · rw [List.mem_singleton.mp hc]
        exact h4

/-- Counterexample to claim C7 as stated: wrapping `"a\nb"` at width 5 gives
two lines `["a", "b"]`, but space-joining them to `"a b"` and wrapping again
gives the single line `["a b"]`, not the original sequence — the newline hard
break is destroyed by the join. -/
theorem C7_counterexample :
    wrap_text cm ("a\nb".data) 5 1 = [['a'], ['b']] ∧
    List.intercalate [' '] [(['a'] : Str), ['b']] = ['a', ' ', 'b'] ∧
    wrap_text cm (['a', ' ', 'b']) 5 1 = [['a', ' ', 'b']] ∧
    ([['a', ' ', 'b']] : List Str) ≠ [['a'], ['b']] := by
  refine ⟨?_, by decide, ?_, by decide⟩
  · norm_num +decide [wrap_text, wrapM, tokens, splitSp, replaceNl, finishWrap, wrapStep,
      blwStep, breakLongWord, cm, charW, pyStrip, isPySpace]
  · norm_num +decide [wrap_text, wrapM, tokens, splitSp, replaceNl, finishWrap, wrapStep,
      blwStep, breakLongWord, cm, charW, pyStrip, isPySpace]

/-- Claim C7, amended: for a strictly clean text (every whitespace character
is a plain space) all of whose non-empty tokens fit the width on their own,
joining the wrapped lines with single spaces and wrapping the joined string
again at the same width, font and size reproduces the same line sequence. -/
theorem C7_wrap_roundtrip (sw : Str → ℚ → ℚ) (fontSize maxW : ℚ) (text : Str)
    (hclean : strictCleanText text)
    (hfit : ∀ w ∈ tokens text, w ≠ [] → sw w fontSize ≤ maxW) :
    wrap_text sw (List.intercalate [' '] (wrap_text sw text maxW fontSize)) maxW fontSize
      = wrap_text sw text maxW fontSize := by
  obtain ⟨htok, hchars⟩ := tokens_strictClean text hclean
  by_cases hnil : wrap_text sw text maxW fontSize = []
  · rw [hnil]
    rfl
  · have hFprop : ∀ w ∈ (tokens text).filter (fun w => ! w.isEmpty),
        w ≠ [] ∧ (∀ c ∈ w, isPySpace c = false) ∧ (fun s => sw s fontSize) w ≤ maxW := by
      intro w hw
      obtain ⟨hmem, hpw⟩ := List.mem_filter.mp hw
      have hwne : w ≠ [] := by
        intro h
        subst h
        simp at hpw
      have hmem2 : w ∈ splitSp text := htok ▸ hmem
      exact ⟨hwne, hchars w hmem2, hfit w hmem hwne⟩
    have hstate0 : stateClean (([] : List Str), ([] : Str)) :=
      ⟨by simp, by simp, rfl, by simp⟩
    obtain ⟨hcfin, hwfin⟩ := wrapFold_words (fun s => sw s fontSize) maxW
      ((tokens text).filter (fun w => ! w.isEmpty)) ([], []) hFprop hstate0
    have hwords0 : stateWords (([] : List Str), ([] : Str)) = [] := rfl
    rw [hwords0, List.nil_append] at hwfin
    have hwrap : wrap_text sw text maxW fontSize
        = finishWrap (((tokens text).filter (fun w => ! w.isEmpty)).foldl
            (wrapStep (fun s => sw s fontSize) maxW) ([], [])) := by
      show wrapM (fun s => sw s fontSize) maxW text = _
      rw [wrapM_eq_foldl, wrapFold_filter]
    have hflat : ((wrap_text sw text maxW fontSize).map splitSp).flatten
        = (tokens text).filter (fun w => ! w.isEmpty) := by
      rw [hwrap, finishWrap_words, hwfin]
    obtain ⟨hnoempty, hlchars⟩ :
        [] ∉ wrap_text sw text maxW fontSize ∧
        ∀ l ∈ wrap_text sw text maxW fontSize, ∀ c ∈ l,
          isPySpace c = false ∨ c = ' ' := by
      rw [hwrap]
      exact finishWrap_clean _ hcfin
    have hjoin_nl : ∀ c ∈ List.intercalate [' '] (wrap_text sw text maxW fontSize),
        ¬ c = '\n' := by
      intro c hc
      rcases mem_intercalate_sp _ c hc with rfl | ⟨l, hl, hcl⟩
      · decide
      · rcases hlchars l hl c hcl with hns | rfl
        · intro h
          subst h
          exact absurd hns (by decide)
        · decide
    have htok2 : tokens (List.intercalate [' '] (wrap_text sw text maxW fontSize))
        = (tokens text).filter (fun w => ! w.isEmpty) := by
      show splitSp (replaceNl (List.intercalate [' '] (wrap_text sw text maxW fontSize)))
        = _
      rw [replaceNl_id _ hjoin_nl, splitSp_intercalate _ hnil, hflat]
    show wrapM (fun s => sw s fontSize) maxW
        (List.intercalate [' '] (wrap_text sw text maxW fontSize)) = _
    rw [wrapM_eq_foldl, htok2, ← wrapFold_filter, ← wrapM_eq_foldl]
    rfl

/-- Witness for C7 at a concrete instance: `"ab cd"` at width 10, every
glyph one unit wide. -/
theorem C7_wrap_roundtrip_witness :
    wrap_text cm (List.intercalate [' '] (wrap_text cm ("ab cd".data) 10 1)) 10 1
      = wrap_text cm ("ab cd".data) 10 1 :=
  C7_wrap_roundtrip cm 1 10 ("ab cd".data)
    (by unfold strictCleanText; decide)
    (by
      have ht : tokens ("ab cd".data) = [['a', 'b'], ['c', 'd']] := by decide
      intro w hw _
      rw [ht] at hw
      rcases List.mem_cons.mp hw with rfl | hw2
      · norm_num +decide [cm, charW]
      · rcases List.mem_cons.mp hw2 with rfl | hw3
        · norm_num +decide [cm, charW]
        · exact absurd hw3 (List.not_mem_nil w))

/-! ### Claim C6: height monotonicity -/

set_option maxHeartbeats 2000000 in
/-- Counterexample to claim C6 as stated: with tabs 100 units wide and all
other glyphs 1 unit, wrapping `"aaaa aa b\t\t\t\t\t"` at width 4 gives 2
lines, but at the BROADER width 7 it gives 7 lines, so the wrapped height
strictly increases as the width is broadened — the `strip()` in the test
line can eat trailing tabs at a narrow width, while a broader width forces
the overwide tab word through the character breaker. -/
theorem C6_counterexample :
    (wrap_text cm ("aaaa aa b\t\t\t\t\t".data) 4 1).length = 2 ∧
    (wrap_text cm ("aaaa aa b\t\t\t\t\t".data) 7 1).length = 7 ∧
    calculate_text_height (wrap_text cm ("aaaa aa b\t\t\t\t\t".data) 4 1) 1 1
      < calculate_text_height (wrap_text cm ("aaaa aa b\t\t\t\t\t".data) 7 1) 1 1 := by
  refine ⟨?_, ?_, ?_⟩ <;>
    norm_num +decide [wrap_text, wrapM, tokens, splitSp, replaceNl, finishWrap, wrapStep,
      blwStep, breakLongWord, cm, charW, pyStrip, isPySpace, calculate_text_height]

/-- Introduction form of `blwAhead` on literal pairs. -/
theorem blwAhead_intro (Le Lh : List Str) (ce ch : Str)
    (h : Le.length < Lh.length ∨ (Le.length = Lh.length ∧ ∃ p, ch = p ++ ce)) :
    blwAhead (Le, ce) (Lh, ch) := h

/-- Two runs with the same pending chunk and no more chunks on the left are
in the stays-ahead relation. -/
theorem blwAhead_same_cur (A B : List Str) (cur : Str) (h : A.length ≤ B.length) :
    blwAhead (A, cur) (B, cur) :=
  blwAhead_intro _ _ _ _ ((lt_or_eq_of_le h).imp id (fun heq => ⟨heq, [], rfl⟩))

theorem blwStep_extend (m : Str → ℚ) (W : ℚ) (L : List Str) (cur : Str) (c : Char)
    (h : m (cur ++ [c]) ≤ W) :
    blwStep m W (L, cur) c = (L, cur ++ [c]) := by
  simp [blwStep, h]

theorem blwStep_flush (m : Str → ℚ) (W : ℚ) (L : List Str) (cur : Str) (c : Char)
    (h : ¬ m (cur ++ [c]) ≤ W) :
    blwStep m W (L, cur) c = ((if cur = [] then L else L ++ [cur]), [c]) := by
  simp [blwStep, h]

/-- One step of the character breaker preserves the stays-ahead relation
between an easy run (wider budget, lighter measure) and a hard run. -/
theorem blwStep_ahead (me mh : Str → ℚ) (We Wh : ℚ)
    (hm : ∀ s, me s ≤ mh s) (hpre : ∀ p s, mh s ≤ mh (p ++ s)) (hW : Wh ≤ We)
    (Le Lh : List Str) (ce ch : Str) (c : Char)
    (hinv : blwAhead (Le, ce) (Lh, ch)) :
    blwAhead (blwStep me We (Le, ce) c) (blwStep mh Wh (Lh, ch) c) := by
  have hinv' : Le.length < Lh.length ∨ (Le.length = Lh.length ∧ ∃ p, ch = p ++ ce) := hinv
  by_cases hh : mh (ch ++ [c]) ≤ Wh
  · rw [blwStep_extend mh Wh Lh ch c hh]
    rcases hinv' with hlt | ⟨heq, p, hp⟩
    · by_cases hee : me (ce ++ [c]) ≤ We
      · rw [blwStep_extend me We Le ce c hee]
        exact blwAhead_intro _ _ _ _ (Or.inl hlt)
      · rw [blwStep_flush me We Le ce c hee]
        by_cases hce : ce = []
        · rw [if_pos hce]
          exact blwAhead_intro _ _ _ _ (Or.inl hlt)
        · rw [if_neg hce]
          have hle : Le.length + 1 ≤ Lh.length := hlt
          rcases lt_or_eq_of_le hle with h2 | h2
          · exact blwAhead_intro _ _ _ _ (Or.inl (by simp; omega))
          · exact blwAhead_intro _ _ _ _ (Or.inr ⟨(by simp; omega), ch, rfl⟩)
    · have hext : me (ce ++ [c]) ≤ We := by
        have h1 : me (ce ++ [c]) ≤ mh (ce ++ [c]) := hm _
        have h2 : mh (ce ++ [c]) ≤ mh (p ++ (ce ++ [c])) := hpre p _
        have h3 : p ++ (ce ++ [c]) = ch ++ [c] := by rw [hp, List.append_assoc]
        rw [h3] at h2
        exact le_trans (le_trans h1 h2) (le_trans hh hW)
      rw [blwStep_extend me We Le ce c hext]
      exact blwAhead_intro _ _ _ _ (Or.inr ⟨heq, p, by rw [hp, List.append_assoc]⟩)
  · rw [blwStep_flush mh Wh Lh ch c hh]
    by_cases hee : me (ce ++ [c]) ≤ We
    · rw [blwStep_extend me We Le ce c hee]
      rcases hinv' with hlt | ⟨heq, p, hp⟩
      · by_cases hch : ch = []
        · rw [if_pos hch]
          exact blwAhead_intro _ _ _ _ (Or.inl hlt)
        · rw [if_neg hch]
          exact blwAhead_intro _ _ _ _ (Or.inl (by simp; omega))
      · by_cases hch : ch = []
        · have hpe : p = [] ∧ ce = [] := by
            rw [hch] at hp
            exact List.append_eq_nil.mp hp.symm
          rw [if_pos hch]
          exact blwAhead_intro _ _ _ _ (Or.inr ⟨heq, [], by simp [hpe.2]⟩)
        · rw [if_neg hch]
          exact blwAhead_intro _ _ _ _ (Or.inl (by simp; omega))
    · rw [blwStep_flush me We Le ce c hee]
      rcases hinv' with hlt | ⟨heq, p, hp⟩
      · by_cases hce : ce = []
        · rw [if_pos hce]
          by_cases hch : ch = []
          · rw [if_pos hch]
            exact blwAhead_same_cur _ _ _ (le_of_lt hlt)
          · rw [if_neg hch]
            exact blwAhead_same_cur _ _ _ (by simp; omega)
        · rw [if_neg hce]
          by_cases hch : ch = []
          · rw [if_pos hch]
            exact blwAhead_same_cur _ _ _ (by simp; omega)
          · rw [if_neg hch]
            exact blwAhead_same_cur _ _ _ (by simp; omega)
      · have hchne : ce ≠ [] → ch ≠ [] := by
          intro h1 h2
          rw [h2] at hp
          exact h1 (List.append_eq_nil.mp hp.symm).2
        by_cases hce : ce = []
        · rw [if_pos hce]
          by_cases hch : ch = []
          · rw [if_pos hch]
            exact blwAhead_same_cur _ _ _ (le_of_eq heq)
          · rw [if_neg hch]
            exact blwAhead_same_cur _ _ _ (by simp; omega)
        · rw [if_neg hce, if_neg (hchne hce)]
          exact blwAhead_same_cur _ _ _ (by simp; omega)

/-- The whole character loop preserves the stays-ahead relation. -/
theorem blwFold_ahead (me mh : Str → ℚ) (We Wh : ℚ)
    (hm : ∀ s, me s ≤ mh s) (hpre : ∀ p s, mh s ≤ mh (p ++ s)) (hW : Wh ≤ We) :
    ∀ (cs : Str) (e h : List Str × Str), blwAhead e h →
      blwAhead (cs.foldl (blwStep me We) e) (cs.foldl (blwStep mh Wh) h) := by
  intro cs
  induction cs with
  | nil => intro e h hi; exact hi
  | cons c cs ih =>
    intro e h hi
    exact ih _ _ (blwStep_ahead me mh We Wh hm hpre hW e.1 h.1 e.2 h.2 c hi)

theorem finishWrap_length (st : List Str × Str) :
    (finishWrap st).length = pendCount st := by
  unfold finishWrap pendCount
  split_ifs <;> simp_all

theorem pendCount_le_of_blwAhead (e h : List Str × Str) (hinv : blwAhead e h) :
    pendCount e ≤ pendCount h := by
  have hinv' : e.1.length < h.1.length ∨ (e.1.length = h.1.length ∧ ∃ p, h.2 = p ++ e.2) :=
    hinv
  unfold pendCount
  rcases hinv' with hlt | ⟨heq, p, hp⟩
  · split_ifs <;> omega
  · by_cases hce : e.2 = []
    · rw [if_pos hce]
      split_ifs <;> omega
    · have hch : h.2 ≠ [] := by
        intro h2
        rw [h2] at hp
        exact hce (List.append_eq_nil.mp hp.symm).2
      rw [if_neg hce, if_neg hch]
      omega

theorem breakLongWord_eq_finish (m : Str → ℚ) (W : ℚ) (w : Str) :
    breakLongWord m W w = finishWrap (w.foldl (blwStep m W) ([], [])) := rfl

/-- The character breaker produces no more chunks for the easy parameters
than for the hard ones. -/
theorem breakLongWord_length_le (me mh : Str → ℚ) (We Wh : ℚ)
    (hm : ∀ s, me s ≤ mh s) (hpre : ∀ p s, mh s ≤ mh (p ++ s)) (hW : Wh ≤ We) (w : Str) :
    (breakLongWord me We w).length ≤ (breakLongWord mh Wh w).length := by
  rw [breakLongWord_eq_finish, breakLongWord_eq_finish, finishWrap_length,
    finishWrap_length]
  exact pendCount_le_of_blwAhead _ _
    (blwFold_ahead me mh We Wh hm hpre hW w ([], []) ([], [])
      (blwAhead_intro [] [] [] [] (Or.inr ⟨rfl, [], rfl⟩)))

/-- `wrap_text`'s word step on an empty current line: take the word when it
fits the width alone, otherwise character-break it. -/
theorem wrapStep_clean_nil (m : Str → ℚ) (maxW : ℚ) (L : List Str) (w : Str)
    (hw : ∀ c ∈ w, isPySpace c = false) (hwne : w ≠ []) :
    wrapStep m maxW (L, []) w =
      if m w ≤ maxW then (L, w) else (L ++ breakLongWord m maxW w, []) := by
  have hnl : w ≠ ['\n'] := by
    rintro rfl
    have := hw '\n' (List.mem_cons_self _ _)
    simp [isPySpace] at this
  by_cases hfit : m w ≤ maxW
  · simp [wrapStep, hnl, hwne, hfit]
  · have hlt : maxW < m w := not_le.mp hfit
    simp [wrapStep, hnl, hwne, hfit, hlt]

/-- Introduction form of `wrapAhead` on literal pairs. -/
theorem wrapAhead_intro (Le Lh : List Str) (ce ch : Str)
    (h : Le.length < Lh.length ∨ (Le.length = Lh.length ∧ wrapRel ce ch)) :
    wrapAhead (Le, ce) (Lh, ch) := h

/-- If the easy pending line is non-empty and related to the hard one, the
hard pending line is non-empty too. -/
theorem wrapRel_hard_ne (ce ch : Str) (h : wrapRel ce ch) (hce : ce ≠ []) : ch ≠ [] := by
  rcases h with rfl | ⟨-, p, -, rfl⟩ | ⟨h1, -⟩
  · exact hce
  · simp
  · exact absurd h1 hce

theorem pendCount_le_of_wrapAhead (e h : List Str × Str) (hinv : wrapAhead e h) :
    pendCount e ≤ pendCount h := by
  have hinv' : e.1.length < h.1.length ∨ (e.1.length = h.1.length ∧ wrapRel e.2 h.2) :=
    hinv
  unfold pendCount
  rcases hinv' with hlt | ⟨heq, hrel⟩
  · split_ifs <;> omega
  · by_cases hce : e.2 = []
    · rw [if_pos hce]
      split_ifs <;> omega
    · rw [if_neg hce, if_neg (wrapRel_hard_ne _ _ hrel hce)]
      omega

/-- One step of the word loop preserves the stays-ahead relation between an
easy wrap run (lighter measure, wider budget) and a hard one, on clean
tokens and strip-free pending lines. -/
theorem wrapStep_ahead (me mh : Str → ℚ) (We Wh : ℚ)
    (hm : ∀ s, me s ≤ mh s) (hpre : ∀ p s, mh s ≤ mh (p ++ s)) (hW : Wh ≤ We)
    (e h : List Str × Str) (w : Str)
    (hw : w = ['\n'] ∨ (∀ c ∈ w, isPySpace c = false))
    (hce : noWsEnds e.2 = true) (hch : noWsEnds h.2 = true)
    (hinv : wrapAhead e h) :
    wrapAhead (wrapStep me We e w) (wrapStep mh Wh h w) := by
  rcases hw with rfl | hwcl
  · rw [wrapStep_nl me We e hce, wrapStep_nl mh Wh h hch]
    have hpc : pendCount e ≤ pendCount h := pendCount_le_of_wrapAhead e h hinv
    have h1 : (finishWrap e).length = pendCount e := finishWrap_length e
    have h2 : (finishWrap h).length = pendCount h := finishWrap_length h
    rcases lt_or_eq_of_le hpc with hlt | heq
    · exact wrapAhead_intro _ _ _ _ (Or.inl (by omega))
    · exact wrapAhead_intro _ _ _ _ (Or.inr ⟨(by omega), Or.inl rfl⟩)
  · by_cases hwne : w = []
    · subst hwne
      rw [wrapStep_empty, wrapStep_empty]
      exact hinv
    · obtain ⟨Le, ce⟩ := e
      obtain ⟨Lh, ch⟩ := h
      have hinv' : Le.length < Lh.length ∨ (Le.length = Lh.length ∧ wrapRel ce ch) := hinv
      have hlecount : Le.length ≤ Lh.length := by
        rcases hinv' with hlt | ⟨heq, -⟩
        exacts [le_of_lt hlt, le_of_eq heq]
      have hBle := breakLongWord_length_le me mh We Wh hm hpre hW w
      have hBh1 : 1 ≤ (breakLongWord mh Wh w).length := by
        have hne := breakLongWord_ne_nil mh Wh w hwne
        have := List.length_pos.mpr hne
        omega
      by_cases hcene : ce = []
      · subst hcene
        by_cases hchne : ch = []
        · subst hchne
          rw [wrapStep_clean_nil me We Le w hwcl hwne,
            wrapStep_clean_nil mh Wh Lh w hwcl hwne]
          by_cases hhf : mh w ≤ Wh
          · rw [if_pos hhf]
            have hef : me w ≤ We := le_trans (le_trans (hm w) hhf) hW
            rw [if_pos hef]
            rcases hinv' with hlt | ⟨heq, -⟩
            · exact wrapAhead_intro _ _ _ _ (Or.inl hlt)
            · exact wrapAhead_intro _ _ _ _ (Or.inr ⟨heq, Or.inl rfl⟩)
          · rw [if_neg hhf]
            by_cases hef : me w ≤ We
            · rw [if_pos hef]
              exact wrapAhead_intro _ _ _ _ (Or.inl (by simp; omega))
            · rw [if_neg hef]
              have hle2 : (Le ++ breakLongWord me We w).length
                  ≤ (Lh ++ breakLongWord mh Wh w).length := by simp; omega
              rcases lt_or_eq_of_le hle2 with h2 | h2
              · exact wrapAhead_intro _ _ _ _ (Or.inl h2)
              · exact wrapAhead_intro _ _ _ _ (Or.inr ⟨h2, Or.inl rfl⟩)
        · rw [wrapStep_clean_nil me We Le w hwcl hwne,
            wrapStep_clean mh Wh Lh ch w hch hchne hwcl hwne]
          by_cases hhj : mh (ch ++ ' ' :: w) ≤ Wh
          · rw [if_pos hhj]
            have hef : me w ≤ We := by
              have h2 : mh w ≤ mh ((ch ++ [' ']) ++ w) := hpre _ _
              have h3 : (ch ++ [' ']) ++ w = ch ++ ' ' :: w := by simp
              rw [h3] at h2
              exact le_trans (le_trans (hm w) (le_trans h2 hhj)) hW
            rw [if_pos hef]
            rcases hinv' with hlt | ⟨heq, -⟩
            · exact wrapAhead_intro _ _ _ _ (Or.inl hlt)
            · exact wrapAhead_intro _ _ _ _ (Or.inr ⟨heq,
                Or.inr (Or.inl ⟨hwne, ch, hchne, rfl⟩)⟩)
          · rw [if_neg hhj]
            by_cases hhf : mh w ≤ Wh
            · rw [if_pos hhf]
              have hef : me w ≤ We := le_trans (le_trans (hm w) hhf) hW
              rw [if_pos hef]
              exact wrapAhead_intro _ _ _ _ (Or.inl (by simp; omega))
            · rw [if_neg hhf]
              by_cases hef : me w ≤ We
              · rw [if_pos hef]
                exact wrapAhead_intro _ _ _ _ (Or.inl (by simp; omega))
              · rw [if_neg hef]
                exact wrapAhead_intro _ _ _ _ (Or.inl (by simp; omega))
      · by_cases hchne : ch = []
        · subst hchne
          have hlt : Le.length < Lh.length := by
            rcases hinv' with hlt | ⟨heq, hrel⟩
            · exact hlt
            · rcases hrel with h1 | ⟨-, p, -, h2⟩ | ⟨h1, -⟩
              · exact absurd h1.symm hcene
              · simp at h2
              · exact absurd h1 hcene
          rw [wrapStep_clean me We Le ce w hce hcene hwcl hwne,
            wrapStep_clean_nil mh Wh Lh w hwcl hwne]
          by_cases hhf : mh w ≤ Wh
          · rw [if_pos hhf]
            have hef : me w ≤ We := le_trans (le_trans (hm w) hhf) hW
            by_cases hej : me (ce ++ ' ' :: w) ≤ We
            · rw [if_pos hej]
              exact wrapAhead_intro _ _ _ _ (Or.inl hlt)
            · rw [if_neg hej, if_pos hef]
              have hle2 : (Le ++ [ce]).length ≤ Lh.length := by simp; omega
              rcases lt_or_eq_of_le hle2 with h2 | h2
              · exact wrapAhead_intro _ _ _ _ (Or.inl h2)
              · exact wrapAhead_intro _ _ _ _ (Or.inr ⟨h2, Or.inl rfl⟩)
          · rw [if_neg hhf]
            by_cases hej : me (ce ++ ' ' :: w) ≤ We
            · rw [if_pos hej]
              exact wrapAhead_intro _ _ _ _ (Or.inl (by simp; omega))
            · rw [if_neg hej]
              by_cases hef : me w ≤ We
              · rw [if_pos hef]
                exact wrapAhead_intro _ _ _ _ (Or.inl (by simp; omega))
              · rw [if_neg hef]
                have hle2 : ((Le ++ [ce]) ++ breakLongWord me We w).length
                    ≤ (Lh ++ breakLongWord mh Wh w).length := by simp; omega
                rcases lt_or_eq_of_le hle2 with h2 | h2
                · exact wrapAhead_intro _ _ _ _ (Or.inl h2)
                · exact wrapAhead_intro _ _ _ _ (Or.inr ⟨h2, Or.inl rfl⟩)
        · rw [wrapStep_clean me We Le ce w hce hcene hwcl hwne,
            wrapStep_clean mh Wh Lh ch w hch hchne hwcl hwne]
          by_cases hhj : mh (ch ++ ' ' :: w) ≤ Wh
          · rw [if_pos hhj]
            rcases hinv' with hlt | ⟨heq, hrel⟩
            · by_cases hej : me (ce ++ ' ' :: w) ≤ We
              · rw [if_pos hej]
                exact wrapAhead_intro _ _ _ _ (Or.inl hlt)
              · rw [if_neg hej]
                have hef : me w ≤ We := by
                  have h2 : mh w ≤ mh ((ch ++ [' ']) ++ w) := hpre _ _
                  have h3 : (ch ++ [' ']) ++ w = ch ++ ' ' :: w := by simp
                  rw [h3] at h2
                  exact le_trans (le_trans (hm w) (le_trans h2 hhj)) hW
                rw [if_pos hef]
                have hle2 : (Le ++ [ce]).length ≤ Lh.length := by simp; omega
                rcases lt_or_eq_of_le hle2 with h2 | h2
                · exact wrapAhead_intro _ _ _ _ (Or.inl h2)
                · exact wrapAhead_intro _ _ _ _ (Or.inr ⟨h2,
                    Or.inr (Or.inl ⟨hwne, ch, hchne, rfl⟩)⟩)
            · rcases hrel with rfl | ⟨-, p, hpne, hrel2⟩ | ⟨h1, -⟩
              · have hej : me (ch ++ ' ' :: w) ≤ We :=
                  le_trans (le_trans (hm _) hhj) hW
                rw [if_pos hej]
                exact wrapAhead_intro _ _ _ _ (Or.inr ⟨heq, Or.inl rfl⟩)
              · have hej : me (ce ++ ' ' :: w) ≤ We := by
                  have h1 : me (ce ++ ' ' :: w) ≤ mh (ce ++ ' ' :: w) := hm _
                  have h2 : mh (ce ++ ' ' :: w)
                      ≤ mh ((p ++ [' ']) ++ (ce ++ ' ' :: w)) := hpre _ _
                  have h3 : (p ++ [' ']) ++ (ce ++ ' ' :: w) = ch ++ ' ' :: w := by
                    rw [hrel2]
                    simp
                  rw [h3] at h2
                  exact le_trans (le_trans h1 h2) (le_trans hhj hW)
                rw [if_pos hej]
                refine wrapAhead_intro _ _ _ _ (Or.inr ⟨heq,
                  Or.inr (Or.inl ⟨(by simp), p, hpne, ?_⟩)⟩)
                rw [hrel2]
                simp
              · exact absurd h1 hcene
          · rw [if_neg hhj]
            by_cases hhf : mh w ≤ Wh
            · rw [if_pos hhf]
              have hef : me w ≤ We := le_trans (le_trans (hm w) hhf) hW
              by_cases hej : me (ce ++ ' ' :: w) ≤ We
              · rw [if_pos hej]
                exact wrapAhead_intro _ _ _ _ (Or.inl (by simp; omega))
              · rw [if_neg hej, if_pos hef]
                have hle2 : (Le ++ [ce]).length ≤ (Lh ++ [ch]).length := by simp; omega
                rcases lt_or_eq_of_le hle2 with h2 | h2
                · exact wrapAhead_intro _ _ _ _ (Or.inl h2)
                · exact wrapAhead_intro _ _ _ _ (Or.inr ⟨h2, Or.inl rfl⟩)
            · rw [if_neg hhf]
              by_cases hej : me (ce ++ ' ' :: w) ≤ We
              · rw [if_pos hej]
                exact wrapAhead_intro _ _ _ _ (Or.inl (by simp; omega))
              · rw [if_neg hej]
                by_cases hef : me w ≤ We
                · rw [if_pos hef]
                  exact wrapAhead_intro _ _ _ _ (Or.inl (by simp; omega))
                · rw [if_neg hef]
                  have hle2 : ((Le ++ [ce]) ++ breakLongWord me We w).length
                      ≤ ((Lh ++ [ch]) ++ breakLongWord mh Wh w).length := by simp; omega
                  rcases lt_or_eq_of_le hle2 with h2 | h2
                  · exact wrapAhead_intro _ _ _ _ (Or.inl h2)
                  · exact wrapAhead_intro _ _ _ _ (Or.inr ⟨h2, Or.inl rfl⟩)

/-- The whole word loop preserves the stays-ahead relation for clean
tokens. -/
theorem wrapFold_ahead (me mh : Str → ℚ) (We Wh : ℚ)
    (hm : ∀ s, me s ≤ mh s) (hpre : ∀ p s, mh s ≤ mh (p ++ s)) (hW : Wh ≤ We) :
    ∀ (ws : List Str) (e h : List Str × Str),
      (∀ w ∈ ws, w = ['\n'] ∨ (∀ c ∈ w, isPySpace c = false)) →
      noWsEnds e.2 = true → noWsEnds h.2 = true →
      wrapAhead e h →
      wrapAhead (ws.foldl (wrapStep me We) e) (ws.foldl (wrapStep mh Wh) h) := by
  intro ws
  induction ws with
  | nil => intro e h _ _ _ hi; exact hi
  | cons w ws ih =>
    intro e h hws hne hnh hi
    have hw0 := hws w (List.mem_cons_self _ _)
    exact ih _ _ (fun v hv => hws v (List.mem_cons_of_mem w hv))
      (wrapStep_noWsEnds me We e w hw0 hne)
      (wrapStep_noWsEnds mh Wh h w hw0 hnh)
      (wrapStep_ahead me mh We Wh hm hpre hW e h w hw0 hne hnh hi)

/-- For a clean text, an easy wrap (lighter measure, wider budget) never
produces more lines than a hard one. -/
theorem wrapM_length_le (me mh : Str → ℚ) (We Wh : ℚ)
    (hm : ∀ s, me s ≤ mh s) (hpre : ∀ p s, mh s ≤ mh (p ++ s)) (hW : Wh ≤ We)
    (t : Str) (hclean : cleanText t) :
    (wrapM me We t).length ≤ (wrapM mh Wh t).length := by
  by_cases ht : t = []
  · subst ht
    exact le_refl _
  · unfold wrapM
    rw [if_neg ht, if_neg ht, finishWrap_length, finishWrap_length]
    exact pendCount_le_of_wrapAhead _ _
      (wrapFold_ahead me mh We Wh hm hpre hW (tokens t) ([], []) ([], [])
        (tokens_clean_shape t hclean).1 rfl rfl
        (wrapAhead_intro [] [] [] [] (Or.inr ⟨rfl, Or.inl rfl⟩)))

theorem calculate_text_height_mono (l1 l2 : List Str) (fs fs' sp : ℚ)
    (h : l1.length ≤ l2.length) (hfs : 0 ≤ fs) (hfs' : fs ≤ fs') (hsp : 0 ≤ sp) :
    calculate_text_height l1 fs sp ≤ calculate_text_height l2 fs' sp := by
  unfold calculate_text_height
  split_ifs with h1 h2 h2
  · exact le_refl 0
  · exact mul_nonneg (Nat.cast_nonneg _) (mul_nonneg (le_trans hfs hfs') hsp)
  · rw [h2] at h
    simp at h
    exact absurd h h1
  · have hc : (l1.length : ℚ) ≤ l2.length := by exact_mod_cast h
    have hff : fs * sp ≤ fs' * sp := mul_le_mul_of_nonneg_right hfs' hsp
    exact mul_le_mul hc hff (mul_nonneg hfs hsp) (Nat.cast_nonneg _)

theorem charW_nonneg (c : Char) : 0 ≤ charW c := by
  unfold charW
  split_ifs <;> norm_num

theorem charW_sum_nonneg (s : Str) : 0 ≤ (s.map charW).sum := by
  induction s with
  | nil => simp
  | cons c cs ih =>
    simp only [List.map_cons, List.sum_cons]
    exact add_nonneg (charW_nonneg c) ih

/-- The concrete measure grows with the size at fixed string. -/
theorem cm_size_mono (s : Str) (sz sz' : ℚ) (h : sz ≤ sz') : cm s sz ≤ cm s sz' :=
  mul_le_mul_of_nonneg_right h (charW_sum_nonneg s)

/-- The concrete measure never decreases when the string is extended on the
left, for non-negative sizes. -/
theorem cm_prepend_mono (sz : ℚ) (hsz : 0 ≤ sz) (p s : Str) :
    cm s sz ≤ cm (p ++ s) sz := by
  unfold cm
  rw [List.map_append, List.sum_append]
  exact mul_le_mul_of_nonneg_left (le_add_of_nonneg_left (charW_sum_nonneg p)) hsz

/-- Claim C6, amended: for a CLEAN text (its whitespace characters are only
plain spaces and newlines), a glyph measure that is monotone in the size and
never decreases under extension on the left, and non-negative size and
spacing, the wrapped height is non-increasing as the width is broadened and
non-decreasing as the size increases.  (As stated, without the cleanliness
restriction, the claim is false: `strip()` can eat stray trailing whitespace
at a narrow width only, making the height increase with the width.) -/
theorem C6_height_monotonicity (sw : Str → ℚ → ℚ) (text : Str) (sp : ℚ)
    (hclean : cleanText text)
    (hsize : ∀ (s : Str) (sz sz' : ℚ), sz ≤ sz' → sw s sz ≤ sw s sz')
    (hext : ∀ sz : ℚ, 0 ≤ sz → ∀ p s : Str, sw s sz ≤ sw (p ++ s) sz)
    (hsp : 0 ≤ sp) :
    (∀ W W' sz : ℚ, 0 ≤ sz → W ≤ W' →
      calculate_text_height (wrap_text sw text W' sz) sz sp
        ≤ calculate_text_height (wrap_text sw text W sz) sz sp) ∧
    (∀ W sz sz' : ℚ, 0 ≤ sz → sz ≤ sz' →
      calculate_text_height (wrap_text sw text W sz) sz sp
        ≤ calculate_text_height (wrap_text sw text W sz') sz' sp) := by
  constructor
  · intro W W' sz hsz hWW
    have hlen : (wrap_text sw text W' sz).length ≤ (wrap_text sw text W sz).length :=
      wrapM_length_le (fun s => sw s sz) (fun s => sw s sz) W' W
        (fun s => le_refl _) (fun p s => hext sz hsz p s) hWW text hclean
    exact calculate_text_height_mono _ _ sz sz sp hlen hsz (le_refl _) hsp
  · intro W sz sz' hsz hss
    have hlen : (wrap_text sw text W sz).length ≤ (wrap_text sw text W sz').length :=
      wrapM_length_le (fun s => sw s sz) (fun s => sw s sz') W W
        (fun s => hsize s sz sz' hss) (fun p s => hext sz' (le_trans hsz hss) p s)
        (le_refl _) text hclean
    exact calculate_text_height_mono _ _ sz sz' sp hlen hsz hss hsp

/-- Witness for C6 at the concrete measure `cm`: broadening the width from 3
to 5 does not increase the wrapped height of `"aa bb"`. -/
theorem C6_height_monotonicity_witness :
    calculate_text_height (wrap_text cm ("aa bb".data) 5 1) 1 1
      ≤ calculate_text_height (wrap_text cm ("aa bb".data) 3 1) 1 1 :=
  (C6_height_monotonicity cm ("aa bb".data) 1
    (by unfold cleanText; decide)
    (fun s sz sz' h => cm_size_mono s sz sz' h)
    (fun sz hsz p s => cm_prepend_mono sz hsz p s)
    (by norm_num)).1 3 5 1 (by norm_num) (by norm_num)

end PD
